import Mathlib

/-!
A verification development for the core of the `lisp.py` interpreter
(reader, printer, value model, environments, evaluator).

Modelling conventions, chosen to stay faithful to the Python source:

* Cons cells are mutable shared objects in Python.  We model them as cells
  in an explicit heap: `Heap` is a list of `(car, cdr)` pairs and a pair
  value is `SExp.ref a`, a reference to the cell at address `a`.  `cons`
  allocates a fresh cell at the end of the heap; `set_car`/`set_cdr`
  overwrite a cell in place.  Two distinct allocations always have distinct
  addresses, which models Python object identity (`a == b` on `Cons`
  objects falls back to `object.__eq__`, i.e. identity).
* Python functions that raise exceptions are modelled in `Except String`,
  carrying the exact message text passed to `make_error`.  Host-level
  exceptions that the source itself never constructs (such as a Python
  `TypeError` from unpacking the wrong number of arguments, or an
  `AttributeError` from mutating a non-cons) are modelled with short
  sentinel messages.  Loops and recursions that Python just runs are given
  explicit fuel; exhausted fuel yields the sentinel message "out of fuel",
  which corresponds to a computation that has not finished.
* The character input stream (`StringInputStream`: a string plus a cursor,
  with `peek`/`advance`) is modelled by the list of remaining characters;
  `peek` of an exhausted stream, `0` in Python, is `Option.none` here.
* The two process-wide tag gensyms are allocated at import time with the
  counter at 0, so `g_builtin_tag` has id 0 and `g_function_tag` has id 1.
* The native callables stored inside builtin values are modelled by the
  enumeration `BFn` of the four functions the interpreter actually wraps.
-/

namespace Lisp

/-- The native callables wrapped by `make_builtin` in `make_core_env`. -/
inductive BFn where
  | beq
  | bcons
  | bcar
  | bcdr
deriving DecidableEq, Repr

/-- Expression values: the atoms, plus `ref` for a (mutable, shared) cons
cell identified by its heap address. -/
inductive SExp where
  | nil
  | sym (name : String)
  | gsym (id : Nat)
  | int (n : Int)
  | ref (addr : Nat)
  | comment (text : String)
  | fn (f : BFn)
deriving DecidableEq, Repr

/-- The heap of cons cells; the cell at address `a` is `h.get? a`. -/
abbrev Heap := List (SExp × SExp)

theorem get?_some_lt {α : Type} {h : List α} {j : Nat} {x : α}
    (hj : h[j]? = some x) : j < h.length :=
  (List.getElem?_eq_some.mp hj).1

theorem get?_set_self {α : Type} {h : List α} {j : Nat} (y : α)
    (hlt : j < h.length) : (h.set j y)[j]? = some y :=
  List.getElem?_set_self hlt

theorem get?_set_other {α : Type} {h : List α} {i j : Nat} (y : α)
    (hne : i ≠ j) : (h.set i y)[j]? = h[j]? :=
  List.getElem?_set_ne hne

theorem get?_append_left {α : Type} {h h2 : List α} {j : Nat}
    (hlt : j < h.length) : (h ++ h2)[j]? = h[j]? :=
  List.getElem?_append_left hlt

/-- Results of fallible computations; the string is the exception text. -/
abbrev Res (α : Type) := Except String α

@[simp] theorem bind_err {α β : Type} (m : String) (f : α → Res β) :
    (Except.error m : Res α) >>= f = .error m := rfl

@[simp] theorem bind_ok {α β : Type} (a : α) (f : α → Res β) :
    (Except.ok a : Res α) >>= f = f a := rfl

/-- Python `str` of the one kind of exception-message interpolation the
claims reach (`"cannot print " + str(exp)` on an integer); the remaining
variants are host-level reprs that the modelled paths never build. -/
def pyStr : SExp → String
  | .int n => toString n
  | .nil => "nil"
  | .sym n => n
  | .gsym i => "#:G" ++ toString i
  | .comment t => String.append (String.append "'" t) "'"
  | .fn _ => "<builtin function>"
  | .ref _ => "<cons>"

-- #
-- # nil / symbol
-- #

def is_nil : SExp → Bool
  | .nil => true
  | _ => false

theorem is_nil_true : is_nil .nil = true := rfl

def is_symbol : SExp → Bool
  | .sym _ => true
  | _ => false

def make_symbol (name : String) : SExp := .sym name

def symbol_name : SExp → String
  | .sym n => n
  | _ => ""

def intern (name : String) : SExp :=
  if name = "nil" then .nil else make_symbol name

-- #
-- # cons
-- #

def is_cons : SExp → Bool
  | .ref _ => true
  | _ => false

/-- `cons(a, b)`: allocate a fresh cell at the end of the heap. -/
def cons (a b : SExp) (h : Heap) : SExp × Heap :=
  (.ref h.length, h ++ [(a, b)])

-- #
-- # gensym
-- #

def is_gensym : SExp → Bool
  | .gsym _ => true
  | _ => false

def gensym_id : SExp → Nat
  | .gsym i => i
  | _ => 0

/-- `gensym()` with the process-wide counter passed explicitly. -/
def gensym (counter : Nat) : SExp × Nat :=
  (.gsym counter, counter + 1)

def is_comment : SExp → Bool
  | .comment _ => true
  | _ => false

-- #
-- # core
-- #

def make_bool (x : Bool) : SExp :=
  if x then intern "t" else .nil

/-- `eq(a, b)`.  When the Python types agree: symbols compare by name,
gensyms by id, and everything else falls back to Python `==`, which is
numeric equality for integers and object identity (address equality) for
cons cells and comments.  Cross-variant comparisons are false. -/
def eq (a b : SExp) : Bool :=
  match a, b with
  | .nil, .nil => true
  | .sym n, .sym m => n = m
  | .gsym i, .gsym j => i = j
  | .int n, .int m => n = m
  | .ref i, .ref j => i = j
  | .comment t, .comment u => t = u
  | .fn f, .fn g => f = g
  | _, _ => false

def equal (a b : SExp) : Bool := eq a b

-- #
-- # printer (atoms)
-- #
-- `render_expr` restricted to non-cons values, factored out because
-- `car`/`cdr` interpolate `repr_expr` of their (necessarily non-cons)
-- argument into the "not a cons" message.

/-- The non-cons branches of `render_expr`: `nil`, symbol and gensym render;
every other atom falls through to `make_error("cannot print " + str(exp))`. -/
def render_atom : SExp → Res String
  | .nil => .ok "nil"
  | .sym n => .ok n
  | .gsym i => .ok ("#:G" ++ toString i)
  | e => .error ("cannot print " ++ pyStr e)

/-- `car(exp)`; on a non-cons the message interpolates `repr_expr(exp)`,
which itself raises first when that atom is unprintable. -/
def car (e : SExp) (h : Heap) : Res SExp :=
  match e with
  | .ref i =>
    match h[i]? with
    | some c => .ok c.1
    | none => .error "dangling reference"
  | _ =>
    match render_atom e with
    | .ok s => .error ("not a cons " ++ s)
    | .error m => .error m

/-- `cdr(exp)`. -/
def cdr (e : SExp) (h : Heap) : Res SExp :=
  match e with
  | .ref i =>
    match h[i]? with
    | some c => .ok c.2
    | none => .error "dangling reference"
  | _ =>
    match render_atom e with
    | .ok s => .error ("not a cons " ++ s)
    | .error m => .error m

/-- `set_car(exp, val)`: in-place mutation.  On a non-cons, Python assigns
the attribute anyway: only built-in types — an Integer, or the reader's
`int` end-of-stream sentinel — raise a host-level `AttributeError`, while
instances of `Nil`, `Symbol`, `Gensym`, `Comment` and function objects
accept the attribute silently; since `car`/`cdr` test `is_cons` before
reading, such a stray attribute is never read back, so the heap is simply
unchanged. -/
def set_car (e v : SExp) (h : Heap) : Res Heap :=
  match e with
  | .ref i =>
    match h[i]? with
    | some c => .ok (h.set i (v, c.2))
    | none => .error "dangling reference"
  | .int _ => .error "AttributeError"
  | _ => .ok h

/-- `set_cdr(exp, val)`: same non-cons behaviour as `set_car`. -/
def set_cdr (e v : SExp) (h : Heap) : Res Heap :=
  match e with
  | .ref i =>
    match h[i]? with
    | some c => .ok (h.set i (c.1, v))
    | none => .error "dangling reference"
  | .int _ => .error "AttributeError"
  | _ => .ok h

def caar (e : SExp) (h : Heap) : Res SExp := do car (← car e h) h

def cadr (e : SExp) (h : Heap) : Res SExp := do car (← cdr e h) h

def cdar (e : SExp) (h : Heap) : Res SExp := do cdr (← car e h) h

def cddr (e : SExp) (h : Heap) : Res SExp := do cdr (← cdr e h) h

def caddr (e : SExp) (h : Heap) : Res SExp := do car (← cdr (← cdr e h) h) h

def cdddr (e : SExp) (h : Heap) : Res SExp := do cdr (← cdr (← cdr e h) h) h

def cadddr (e : SExp) (h : Heap) : Res SExp := do
  car (← cdr (← cdr (← cdr e h) h) h) h

-- #
-- # list
-- #

/-- `make_list(*args)`: right-fold `cons`, allocating from the last
argument leftwards exactly as the Python `reversed(args)` loop does. -/
def make_list (args : List SExp) (h : Heap) : SExp × Heap :=
  args.reverse.foldl (fun (acc : SExp × Heap) a => cons a acc.1 acc.2) (.nil, h)

-- #
-- # printer
-- #

mutual

/-- `render_expr(exp, opts)`, accumulating the output string.  The `pretty`
flag of `PrinterOpts` is declared in the source but never read, so the
options record is dropped.  Fuel bounds the recursion (the Python version
does not terminate on cyclic structures). -/
def render_expr : Nat → SExp → Heap → Res String
  | 0, _, _ => .error "out of fuel"
  | fuel + 1, e, h =>
    match e with
    | .ref i => render_list fuel (.ref i) h
    | a => render_atom a

/-- `render_list(exp, opts)`: open paren, first element, then the tail walk. -/
def render_list : Nat → SExp → Heap → Res String
  | 0, _, _ => .error "out of fuel"
  | fuel + 1, e, h => do
    let a ← car e h
    let s ← render_expr fuel a h
    let t ← render_tail fuel (← cdr e h) h
    return "(" ++ s ++ t ++ ")"

/-- The `while not is_nil(tmp)` walk inside `render_list`: a space before
each further element, or ` . ` before a non-nil terminating atom. -/
def render_tail : Nat → SExp → Heap → Res String
  | 0, _, _ => .error "out of fuel"
  | fuel + 1, e, h =>
    match e with
    | .nil => .ok ""
    | .ref i => do
      let a ← car (.ref i) h
      let s ← render_expr fuel a h
      let t ← render_tail fuel (← cdr (.ref i) h) h
      return " " ++ s ++ t
    | a => do
      let s ← render_expr fuel a h
      return " . " ++ s

end

/-- `repr_expr(exp)`: render into a fresh string output stream. -/
def repr_expr (fuel : Nat) (e : SExp) (h : Heap) : Res String :=
  render_expr fuel e h

-- #
-- # reader
-- #

/-- The two reader flags; defaults are `read_comments = false`,
`read_quote = true` (see `readerDefaults`). -/
structure ReaderOpts where
  read_comments : Bool
  read_quote : Bool
deriving DecidableEq, Repr

def readerDefaults : ReaderOpts := ⟨false, true⟩

/-- The quote character `'` (written by code to avoid escapes). -/
def qchar : Char := Char.ofNat 39

/-- The double-quote character `"`. -/
def dqchar : Char := Char.ofNat 34

def is_ws (c : Char) : Bool := c = ' ' || c = '\n' || c = '\t'

def is_comment_start (c : Char) : Bool := c = ';'

def is_comment_part (c : Char) : Bool := !(c = '\n')

/-- `is_symbol_start(ch)`: any non-end, non-whitespace character other than
`"`, `(`, `)`, `;`, `'`; the Python sentinel `0` (modelled `none`) is falsy. -/
def is_symbol_start : Option Char → Bool
  | none => false
  | some c =>
    !is_ws c && !(c = dqchar) && !(c = '(') && !(c = ')') && !(c = ';')
      && !(c = qchar)

def is_symbol_part (c : Option Char) : Bool := is_symbol_start c

/-- `peek` on the remaining-characters view of the stream. -/
def peekc : List Char → Option Char
  | [] => none
  | c :: _ => some c

mutual

/-- `skip_junk(stream, opts)`: repeatedly strip whitespace (`skip_ws`) or,
when comments are not being read, a `;`-comment (`skip_comment`). -/
def skip_junk (opts : ReaderOpts) : List Char → List Char
  | [] => []
  | c :: cs =>
    if is_ws c then skip_junk opts cs
    else if !opts.read_comments && is_comment_start c then
      skip_comment_tail opts cs
    else c :: cs

/-- The `while is_comment_part(peek)` walk of `skip_comment`.  In the
source the terminating newline is left for the next `skip_ws` round; since
`skip_junk('\n' :: cs) = skip_junk(cs)`, consuming it here is the same. -/
def skip_comment_tail (opts : ReaderOpts) : List Char → List Char
  | [] => []
  | c :: cs =>
    if is_comment_part c then skip_comment_tail opts cs
    else skip_junk opts cs

end

/-- The lexeme-accumulation loop of the atom branch of `parse_expr`:
consume while `is_symbol_part`, returning the lexeme and the rest. -/
def take_lexeme : List Char → List Char × List Char
  | [] => ([], [])
  | c :: cs =>
    if is_symbol_part (some c) then
      let r := take_lexeme cs
      (c :: r.1, r.2)
    else ([], c :: cs)

/-- The regular-expression test `^-?[0-9]+$` together with Python
`int(lexeme)`: an optional minus sign then one or more decimal digits. -/
def int_lexeme : List Char → Option Int
  | [] => none
  | '-' :: ds =>
    if ds ≠ [] ∧ ds.all Char.isDigit then
      some (-(ds.foldl (fun a c => a * 10 + ((c.toNat - 48 : Nat) : Int)) 0))
    else none
  | ds =>
    if ds.all Char.isDigit then
      some (ds.foldl (fun a c => a * 10 + ((c.toNat - 48 : Nat) : Int)) 0)
    else none

mutual

/-- `parse_expr(stream, opts)`: skip junk, then dispatch on the leading
character: comment (when `read_comments`), list, quote sugar, atom, or the
`unexpected` error (whose message prints the Python sentinel `0` at end of
stream).  The list branch, `parse_list`, is inlined as
`parse_list_loop fuel opts nil nil` (its `head`/`tail` both start nil); the
standalone wrapper `parse_list` is defined after the block. -/
def parse_expr : Nat → ReaderOpts → List Char → Heap →
    Res (SExp × List Char × Heap)
  | 0, _, _, _ => .error "out of fuel"
  | fuel + 1, opts, cs, h =>
    let cs := skip_junk opts cs
    if opts.read_comments && peekc cs = some ';' then
      let lexeme := cs.takeWhile is_comment_part
      let rest := cs.dropWhile is_comment_part
      match rest with
      | [] => .ok (.comment (String.mk lexeme), [], h)
      | _ :: rest' => .ok (.comment (String.mk lexeme), rest', h)
    else if peekc cs = some '(' then
      match cs with
      | _ :: cs' => parse_list_loop fuel opts .nil .nil cs' h
      | [] => .error "unreachable"
    else if opts.read_quote && peekc cs = some qchar then
      match cs with
      | _ :: cs' =>
        match parse_expr fuel opts cs' h with
        | .error m => .error m
        | .ok (e, rest, h1) =>
          let (c1, h2) := cons e .nil h1
          let (c2, h3) := cons (intern "quote") c1 h2
          .ok (c2, rest, h3)
      | [] => .error "unreachable"
    else if is_symbol_start (peekc cs) then
      let (lexeme, rest) := take_lexeme cs
      match int_lexeme lexeme with
      | some n => .ok (.int n, rest, h)
      | none => .ok (intern (String.mk lexeme), rest, h)
    else
      match peekc cs with
      | none => .error "unexpected '0'"
      | some c => .error ("unexpected '" ++ String.mk [c] ++ "'")
termination_by structural fuel _ _ _ => fuel


/-- The `while True` loop of `parse_list`: stop at `)` returning `head`;
fail at end of stream; parse an element; a standalone `.` lexeme installs a
dotted tail (via `set_cdr`) and requires an immediate `)`; otherwise append
a fresh cell (`set_cdr` on the previous tail). -/
def parse_list_loop : Nat → ReaderOpts → SExp → SExp → List Char → Heap →
    Res (SExp × List Char × Heap)
  | 0, _, _, _, _, _ => .error "out of fuel"
  | fuel + 1, opts, hd, tl, cs, h =>
    let cs := skip_junk opts cs
    match cs with
    | [] => .error "unexpected end of stream while parsing list"
    | ')' :: rest => .ok (hd, rest, h)
    | _ =>
      match parse_expr fuel opts cs h with
      | .error m => .error m
      | .ok (e, cs1, h1) =>
        if eq e (intern ".") then
          match parse_expr fuel opts cs1 h1 with
          | .error m => .error m
          | .ok (e2, cs2, h2) =>
            match set_cdr tl e2 h2 with
            | .error m => .error m
            | .ok h3 =>
              match skip_junk opts cs2 with
              | ')' :: rest => .ok (hd, rest, h3)
              | _ => .error "missing closing ')'"
        else
          let (next, h2) := cons e .nil h1
          if is_nil tl then
            parse_list_loop fuel opts next next cs1 h2
          else
            match set_cdr tl next h2 with
            | .error m => .error m
            | .ok h3 => parse_list_loop fuel opts hd next cs1 h3
termination_by structural fuel _ _ _ _ _ => fuel

end

/-- `parse_list(stream, opts)` after its `advance` past `(` (the `peek`
check preceding it cannot fail where it is called). -/
def parse_list (fuel : Nat) (opts : ReaderOpts) (cs : List Char) (h : Heap) :
    Res (SExp × List Char × Heap) :=
  parse_list_loop fuel opts .nil .nil cs h

/-- `read_one_from_string(src, opts)`. -/
def read_one_from_string (fuel : Nat) (opts : ReaderOpts) (src : String)
    (h : Heap) : Res (SExp × List Char × Heap) :=
  parse_expr fuel opts src.data h

-- #
-- # env
-- #

/-- `make_env(outer)` = `cons(cons(nil, nil), outer)`. -/
def make_env (outer : SExp) (h : Heap) : SExp × Heap :=
  let (p, h1) := cons .nil .nil h
  cons p outer h1

def env_vars (env : SExp) (h : Heap) : Res SExp := caar env h

def env_vals (env : SExp) (h : Heap) : Res SExp := cdar env h

def env_outer (env : SExp) (h : Heap) : Res SExp := cdr env h

/-- `env_push(env, var, val)`: prepend to the top frame's vars and vals
(each `cons` allocates, then the frame pair is overwritten in place). -/
def env_push (env var val : SExp) (h : Heap) : Res Heap := do
  let pair ← car env h
  let vs ← car pair h
  let (c1, h1) := cons var vs h
  let h2 ← set_car pair c1 h1
  let ws ← cdr pair h2
  let (c2, h3) := cons val ws h2
  set_cdr pair c2 h3

/-- The `while not is_nil(vars)` walk of `env_find_local`. -/
def env_find_loop : Nat → SExp → SExp → SExp → Heap → Res SExp
  | 0, _, _, _, _ => .error "out of fuel"
  | fuel + 1, vars, vals, var, h =>
    if is_nil vars then .ok .nil
    else do
      let v ← car vars h
      if eq v var then .ok vals
      else do
        let vars' ← cdr vars h
        let vals' ← cdr vals h
        env_find_loop fuel vars' vals' var h

/-- `env_find_local(env, var)`: first `eq` match in the top frame returns
the remaining vals cell, else nil. -/
def env_find_local (fuel : Nat) (env var : SExp) (h : Heap) : Res SExp := do
  let pair ← car env h
  let vars ← car pair h
  let vals ← cdr pair h
  env_find_loop fuel vars vals var h

/-- `env_find_global(env, var)`: walk frames outward. -/
def env_find_global : Nat → SExp → SExp → Heap → Res SExp
  | 0, _, _, _ => .error "out of fuel"
  | fuel + 1, env, var, h =>
    if is_nil env then .ok .nil
    else do
      let iter ← env_find_local fuel env var h
      if is_nil iter then do
        let env' ← env_outer env h
        env_find_global fuel env' var h
      else .ok iter

/-- `env_def(env, var, val)`: overwrite a local binding or push a new one. -/
def env_def (fuel : Nat) (env var val : SExp) (h : Heap) : Res Heap := do
  let vals ← env_find_local fuel env var h
  if is_nil vals then env_push env var val h
  else set_car vals val h

/-- The rewiring loop of `env_del`, carrying the previous cells. -/
def env_del_loop : Nat → SExp → SExp → SExp → SExp → SExp → SExp → Heap →
    Res Heap
  | 0, _, _, _, _, _, _, _ => .error "out of fuel"
  | fuel + 1, pair, vars, vals, prev_vars, prev_vals, var, h =>
    if is_nil vars then
      match render_expr (fuel + 1) var h with
      | .ok s => .error ("cannot remove variable " ++ s)
      | .error m => .error m
    else do
      let v ← car vars h
      if eq v var then do
        let vs' ← cdr vars h
        let ws' ← cdr vals h
        if is_nil prev_vars then do
          let h1 ← set_car pair vs' h
          set_cdr pair ws' h1
        else do
          let h1 ← set_cdr prev_vars vs' h
          set_cdr prev_vals ws' h1
      else do
        let vars' ← cdr vars h
        let vals' ← cdr vals h
        env_del_loop fuel pair vars' vals' vars vals var h

/-- `env_del(env, var)`: remove the first local match from the top frame. -/
def env_del (fuel : Nat) (env var : SExp) (h : Heap) : Res Heap := do
  let pair ← car env h
  let vars ← car pair h
  let vals ← cdr pair h
  env_del_loop fuel pair vars vals .nil .nil var h

/-- `env_set(env, var, val)`: locate globally; absent → `Unbound`. -/
def env_set (fuel : Nat) (env var val : SExp) (h : Heap) : Res Heap := do
  let vals ← env_find_global fuel env var h
  if is_nil vals then
    match render_expr fuel var h with
    | .ok s => .error ("unbound variable " ++ s)
    | .error m => .error m
  else set_car vals val h

/-- `env_get(env, var)`: locate globally; absent → `Unbound`. -/
def env_get (fuel : Nat) (env var : SExp) (h : Heap) : Res SExp := do
  let iter ← env_find_global fuel env var h
  if is_nil iter then
    match render_expr fuel var h with
    | .ok s => .error ("unbound variable " ++ s)
    | .error m => .error m
  else car iter h

mutual

/-- `env_dbind(env, vars, vals)` destructuring bind. -/
def env_dbind : Nat → SExp → SExp → SExp → Heap → Res Heap
  | 0, _, _, _, _ => .error "out of fuel"
  | fuel + 1, env, vars, vals, h =>
    if is_nil vars then .ok h
    else env_dbind_loop fuel env vars vals h

/-- The `while is_cons(vars)` loop of `env_dbind`; afterwards a non-nil
tail is bound as a rest parameter via `env_def`. -/
def env_dbind_loop : Nat → SExp → SExp → SExp → Heap → Res Heap
  | 0, _, _, _, _ => .error "out of fuel"
  | fuel + 1, env, vars, vals, h =>
    if is_cons vars then do
      let var ← car vars h
      let val ← car vals h
      let h1 ← env_dbind fuel env var val h
      let vars' ← cdr vars h1
      let vals' ← cdr vals h1
      env_dbind_loop fuel env vars' vals' h1
    else
      if is_nil vars then .ok h
      else env_def (fuel + 1) env vars vals h

end

-- #
-- # builtin / function
-- #

/-- First gensym allocated at import time. -/
def g_builtin_tag : SExp := .gsym 0

/-- Second gensym allocated at import time. -/
def g_function_tag : SExp := .gsym 1

/-- `is_op(exp, sym)` = `is_cons(exp) and eq(car(exp), sym)`. -/
def is_op (e s : SExp) (h : Heap) : Bool :=
  match e with
  | .ref i =>
    match h[i]? with
    | some c => eq c.1 s
    | none => false
  | _ => false

def is_builtin (e : SExp) (h : Heap) : Bool := is_op e g_builtin_tag h

def make_builtin (f : BFn) (h : Heap) : SExp × Heap :=
  make_list [g_builtin_tag, .fn f] h

def builtin_fun (e : SExp) (h : Heap) : Res SExp := cadr e h

/-- `is_function(exp)` = cons whose car is a cons whose car is the tag. -/
def is_function (e : SExp) (h : Heap) : Bool :=
  match e with
  | .ref i =>
    match h[i]? with
    | some c => is_op c.1 g_function_tag h
    | none => false
  | _ => false

def make_function (env args body : SExp) (h : Heap) : SExp × Heap :=
  let (c1, h1) := cons g_function_tag env h
  let (c2, h2) := cons args body h1
  cons c1 c2 h2

def function_env (e : SExp) (h : Heap) : Res SExp := cdar e h

def function_args (e : SExp) (h : Heap) : Res SExp := cadr e h

def function_body (e : SExp) (h : Heap) : Res SExp := cddr e h

-- #
-- # interpreter
-- #

/-- `make_core_env()`: `t`, `eq`, `cons`, `car`, `cdr`. -/
def make_core_env (fuel : Nat) (h : Heap) : Res (SExp × Heap) := do
  let (env, h1) := make_env .nil h
  let h2 ← env_def fuel env (intern "t") (intern "t") h1
  let (beq, h3) := make_builtin .beq h2
  let h4 ← env_def fuel env (intern "eq") beq h3
  let (bcons, h5) := make_builtin .bcons h4
  let h6 ← env_def fuel env (intern "cons") bcons h5
  let (bcar, h7) := make_builtin .bcar h6
  let h8 ← env_def fuel env (intern "car") bcar h7
  let (bcdr, h9) := make_builtin .bcdr h8
  let h10 ← env_def fuel env (intern "cdr") bcdr h9
  .ok (env, h10)

/-- The `ListIter`-driven unpacking `fun(*vals)`: collect the elements of a
lisp list into a host list (each step is `is_nil` / `car` / `cdr`). -/
def list_elems : Nat → SExp → Heap → Res (List SExp)
  | 0, _, _ => .error "out of fuel"
  | fuel + 1, e, h =>
    if is_nil e then .ok []
    else do
      let a ← car e h
      let rest ← cdr e h
      let l ← list_elems fuel rest h
      .ok (a :: l)

/-- Invoke the native callable of a builtin on the unpacked argument
values; a wrong argument count is a host-level `TypeError`. -/
def apply_bfn (f : BFn) (args : List SExp) (h : Heap) : Res (SExp × Heap) :=
  match f, args with
  | .beq, [a, b] => .ok (make_bool (eq a b), h)
  | .bcons, [a, b] => .ok (cons a b h)
  | .bcar, [a] => do
    let v ← car a h
    .ok (v, h)
  | .bcdr, [a] => do
    let v ← cdr a h
    .ok (v, h)
  | _, _ => .error "TypeError"

/-- The two-phase destructive reverse: phase 1 rewires the cdr chain. -/
def nrev_loop1 : Nat → SExp → SExp → Heap → Res (SExp × SExp × Heap)
  | 0, _, _, _ => .error "out of fuel"
  | fuel + 1, expr, prev, h =>
    if is_cons expr then do
      let next ← cdr expr h
      let h1 ← set_cdr expr prev h
      nrev_loop1 fuel next expr h1
    else .ok (prev, expr, h)

/-- The `while not is_nil(cdr(iter))` fixup loop of `nreverse` (note that
`iter` is never advanced by the loop body). -/
def nrev_loop2 : Nat → SExp → SExp → Heap → Res (SExp × Heap)
  | 0, _, _, _ => .error "out of fuel"
  | fuel + 1, iter, expr, h => do
    let d ← cdr iter h
    if is_nil d then do
      let next ← car iter h
      let h1 ← set_car iter expr h
      let h2 ← set_cdr iter next h1
      .ok (expr, h2)
    else do
      let next ← car iter h
      let h1 ← set_car iter expr h
      nrev_loop2 fuel iter next h1

/-- `nreverse(list)`. -/
def nreverse (fuel : Nat) (l : SExp) (h : Heap) : Res (SExp × Heap) :=
  if is_nil l then .ok (l, h)
  else do
    let (prev, expr, h1) ← nrev_loop1 fuel l .nil h
    if is_nil expr then .ok (prev, h1)
    else do
      let (_, h2) ← nrev_loop2 fuel prev expr h1
      .ok (prev, h2)

mutual

/-- `eval(exp, env)` dispatch. -/
def eval : Nat → SExp → SExp → Heap → Res (SExp × Heap)
  | 0, _, _, _ => .error "out of fuel"
  | fuel + 1, exp, env, h =>
    if is_nil exp then .ok (exp, h)
    else if is_symbol exp || is_gensym exp then do
      let v ← env_get fuel env exp h
      .ok (v, h)
    else if is_op exp (intern "quote") h then do
      let v ← cadr exp h
      .ok (v, h)
    else if is_op exp (intern "lit") h then .ok (exp, h)
    else if is_op exp (intern "if") h then eval_if fuel exp env h
    else if is_cons exp then eval_cons fuel exp env h
    else
      match render_atom exp with
      | .ok s => .error ("cannot eval " ++ s)
      | .error m => .error m
termination_by structural fuel _ _ _ => fuel

/-- The `for exp in exps` loop of `eval_list` (`ListIter` reads `car` and
`cdr` before the body runs); the accumulator starts nil and is `nreverse`d
at the end.  The standalone wrapper `eval_list` is defined after the
block. -/
def eval_list_loop : Nat → SExp → SExp → SExp → Heap → Res (SExp × Heap)
  | 0, _, _, _, _ => .error "out of fuel"
  | fuel + 1, exps, env, ret, h =>
    if is_nil exps then nreverse (fuel + 1) ret h
    else do
      let x ← car exps h
      let rest ← cdr exps h
      match eval fuel x env h with
      | .error m => .error m
      | .ok (v, h1) =>
        let (ret', h2) := cons v ret h1
        eval_list_loop fuel rest env ret' h2
termination_by structural fuel _ _ _ _ => fuel

/-- The `for stmt in body` loop of `eval_body`. -/
def eval_body : Nat → SExp → SExp → SExp → Heap → Res (SExp × Heap)
  | 0, _, _, _, _ => .error "out of fuel"
  | fuel + 1, body, env, ret, h =>
    if is_nil body then .ok (ret, h)
    else do
      let stmt ← car body h
      let rest ← cdr body h
      match eval fuel stmt env h with
      | .error m => .error m
      | .ok (v, h1) => eval_body fuel rest env v h1
termination_by structural fuel _ _ _ _ => fuel

/-- `eval_cons(exp, env)`: builtin application, function application, or
the fallback re-evaluation of `(evaluated-head . args)`. -/
def eval_cons : Nat → SExp → SExp → Heap → Res (SExp × Heap)
  | 0, _, _, _ => .error "out of fuel"
  | fuel + 1, exp, env, h => do
    let name ← car exp h
    let args ← cdr exp h
    if is_builtin name h then
      match eval_list_loop fuel args env .nil h with
      | .error m => .error m
      | .ok (vals, h1) => do
        let f ← builtin_fun name h1
        match f with
        | .fn bf => do
          let elems ← list_elems (fuel + 1) vals h1
          apply_bfn bf elems h1
        | _ => .error "TypeError"
    else if is_function name h then do
      let body ← function_body name h
      let fenv ← function_env name h
      let vars ← function_args name h
      match eval_list_loop fuel args env .nil h with
      | .error m => .error m
      | .ok (vals, h1) =>
        let (cenv, h2) := make_env fenv h1
        match env_dbind fuel cenv vars vals h2 with
        | .error m => .error m
        | .ok h3 => eval_body fuel body cenv .nil h3
    else
      match eval fuel name env h with
      | .error m => .error m
      | .ok (v, h1) =>
        let (c, h2) := cons v args h1
        eval fuel c env h2
termination_by structural fuel _ _ _ => fuel

/-- `eval_if(exp, env)`: `test` and `then` are read before the test is
evaluated; the else-arm existence check reads the (possibly mutated) heap
afterwards. -/
def eval_if : Nat → SExp → SExp → Heap → Res (SExp × Heap)
  | 0, _, _, _ => .error "out of fuel"
  | fuel + 1, exp, env, h => do
    let test ← cadr exp h
    let then_ ← caddr exp h
    match eval fuel test env h with
    | .error m => .error m
    | .ok (v, h1) =>
      if !is_nil v then eval fuel then_ env h1
      else do
        let rest ← cdddr exp h1
        if !is_nil rest then do
          let e4 ← cadddr exp h1
          eval fuel e4 env h1
        else .ok (.nil, h1)
termination_by structural fuel _ _ _ => fuel

end

/-- `eval_list(exps, env)`: evaluate left to right onto an accumulator
list, then `nreverse` it. -/
def eval_list (fuel : Nat) (exps env : SExp) (h : Heap) :
    Res (SExp × Heap) :=
  eval_list_loop fuel exps env .nil h

/-- `eval_src(src, env)` = `repr_expr(eval(read_one_from_string(src), env))`. -/
def eval_src (fuel : Nat) (src : String) (env : SExp) (h : Heap) :
    Res String := do
  let (e, _, h1) ← read_one_from_string fuel readerDefaults src h
  match eval fuel e env h1 with
  | .error m => .error m
  | .ok (v, h2) => repr_expr fuel v h2

-- #
-- # specification-level helpers
-- #

/-- Glossary notion used by the claims: a proper list is a right-nested
chain of pairs terminated by Nil (fuel-bounded walk over the heap). -/
def proper_list : Nat → SExp → Heap → Bool
  | 0, _, _ => false
  | fuel + 1, e, h =>
    match e with
    | .nil => true
    | .ref i =>
      match h[i]? with
      | some c => proper_list fuel c.2 h
      | none => false
    | _ => false

/-- Drop the final heap of an evaluation result, keeping the value. -/
def res_val (r : Res (SExp × Heap)) : Res SExp :=
  match r with
  | .error m => .error m
  | .ok (v, _) => .ok v

-- #
-- # environment abstraction
-- #
-- Proofs about the environment operations go through an abstraction
-- relation: a frame cell holds two parallel proper lists (variables and
-- values) which we read off as a single association list, recording the
-- heap addresses of every participating cell so that in-place updates can
-- be localised.

/-- `ListRep h e xs as`: `e` is a proper lisp list in `h` with elements
`xs`, whose cells sit at addresses `as` (front to back). -/
inductive ListRep (h : Heap) : SExp → List SExp → List Nat → Prop
  | nil : ListRep h .nil [] []
  | cons {i : Nat} {x d : SExp} {xs : List SExp} {as : List Nat} :
      h[i]? = some (x, d) → ListRep h d xs as →
      ListRep h (.ref i) (x :: xs) (i :: as)

/-- `FrameRep h pr f as`: the frame pair at `pr` carries vars/vals lists
that zip to the association list `f`; `as` collects the pair cell and both
list spines. -/
inductive FrameRep (h : Heap) : SExp → List (SExp × SExp) → List Nat → Prop
  | mk {p : Nat} {vars vals : SExp} {f : List (SExp × SExp)}
      {as bs : List Nat} :
      h[p]? = some (vars, vals) →
      ListRep h vars (f.map Prod.fst) as →
      ListRep h vals (f.map Prod.snd) bs →
      FrameRep h (.ref p) f (p :: (as ++ bs))

/-- `EnvRep h env fs A`: the environment chain decodes to the frames `fs`
(innermost first), with all cell addresses collected in `A`. -/
inductive EnvRep (h : Heap) : SExp → List (List (SExp × SExp)) → List Nat →
    Prop
  | nil : EnvRep h .nil [] []
  | cons {e : Nat} {pr outer : SExp} {f : List (SExp × SExp)}
      {fs : List (List (SExp × SExp))} {as bs : List Nat} :
      h[e]? = some (pr, outer) → FrameRep h pr f as →
      EnvRep h outer fs bs → EnvRep h (.ref e) (f :: fs) (e :: (as ++ bs))

theorem ListRep_addr_lt {h : Heap} {e : SExp} {xs : List SExp}
    {as : List Nat} (hr : ListRep h e xs as) :
    ∀ i ∈ as, i < h.length := by
  induction hr with
  | nil => intro i hi; cases hi
  | cons hc _ ih =>
    intro i hi
    rcases List.mem_cons.mp hi with hh | ht
    · subst hh; exact get?_some_lt hc
    · exact ih i ht

theorem ListRep_frame {h h2 : Heap} {e : SExp} {xs : List SExp}
    {as : List Nat} (hr : ListRep h e xs as)
    (hag : ∀ i ∈ as, h2[i]? = h[i]?) : ListRep h2 e xs as := by
  induction hr with
  | nil => exact .nil
  | cons hc hrest ih =>
    refine .cons ?_ (ih fun i hi => hag i (List.mem_cons_of_mem _ hi))
    rw [hag _ (List.mem_cons_self _ _)]
    exact hc

theorem FrameRep_addr_lt {h : Heap} {pr : SExp} {f : List (SExp × SExp)}
    {as : List Nat} (hr : FrameRep h pr f as) :
    ∀ i ∈ as, i < h.length := by
  cases hr with
  | mk hp hvars hvals =>
    intro i hi
    rcases List.mem_cons.mp hi with hh | ht
    · subst hh; exact get?_some_lt hp
    · rcases List.mem_append.mp ht with ha | hb
      · exact ListRep_addr_lt hvars i ha
      · exact ListRep_addr_lt hvals i hb

theorem FrameRep_frame {h h2 : Heap} {pr : SExp} {f : List (SExp × SExp)}
    {as : List Nat} (hr : FrameRep h pr f as)
    (hag : ∀ i ∈ as, h2[i]? = h[i]?) : FrameRep h2 pr f as := by
  cases hr with
  | mk hp hvars hvals =>
    refine .mk ?_
      (ListRep_frame hvars fun i hi =>
        hag i (List.mem_cons_of_mem _ (List.mem_append_left _ hi)))
      (ListRep_frame hvals fun i hi =>
        hag i (List.mem_cons_of_mem _ (List.mem_append_right _ hi)))
    rw [hag _ (List.mem_cons_self _ _)]
    exact hp

theorem EnvRep_addr_lt {h : Heap} {env : SExp}
    {fs : List (List (SExp × SExp))} {A : List Nat}
    (hr : EnvRep h env fs A) : ∀ i ∈ A, i < h.length := by
  induction hr with
  | nil => intro i hi; cases hi
  | cons he hf _ ih =>
    intro i hi
    rcases List.mem_cons.mp hi with hh | ht
    · subst hh; exact get?_some_lt he
    · rcases List.mem_append.mp ht with ha | hb
      · exact FrameRep_addr_lt hf i ha
      · exact ih i hb

theorem EnvRep_frame {h h2 : Heap} {env : SExp}
    {fs : List (List (SExp × SExp))} {A : List Nat}
    (hr : EnvRep h env fs A) (hag : ∀ i ∈ A, h2[i]? = h[i]?) :
    EnvRep h2 env fs A := by
  induction hr with
  | nil => exact .nil
  | cons he hf hrest ih =>
    refine .cons ?_
      (FrameRep_frame hf fun i hi =>
        hag i (List.mem_cons_of_mem _ (List.mem_append_left _ hi)))
      (ih fun i hi =>
        hag i (List.mem_cons_of_mem _ (List.mem_append_right _ hi)))
    rw [hag _ (List.mem_cons_self _ _)]
    exact he

/-- Heap extension by allocation preserves every representation. -/
theorem EnvRep_append {h : Heap} {ext : Heap} {env : SExp}
    {fs : List (List (SExp × SExp))} {A : List Nat}
    (hr : EnvRep h env fs A) : EnvRep (h ++ ext) env fs A :=
  EnvRep_frame hr fun i hi =>
    get?_append_left (EnvRep_addr_lt hr i hi)

theorem ListRep_append {h : Heap} {ext : Heap} {e : SExp} {xs : List SExp}
    {as : List Nat} (hr : ListRep h e xs as) : ListRep (h ++ ext) e xs as :=
  ListRep_frame hr fun i hi =>
    get?_append_left (ListRep_addr_lt hr i hi)

/-- First matching value in one frame (the order `env_find_local` walks). -/
def frame_find (f : List (SExp × SExp)) (var : SExp) : Option SExp :=
  match f with
  | [] => none
  | (v, x) :: f' => if eq v var then some x else frame_find f' var

/-- Overwrite the first matching binding in one frame. -/
def frame_update (f : List (SExp × SExp)) (var val : SExp) :
    List (SExp × SExp) :=
  match f with
  | [] => []
  | (v, x) :: f' =>
    if eq v var then (v, val) :: f' else (v, x) :: frame_update f' var val

/-- First matching value across the frame chain (innermost first). -/
def env_lookup (fs : List (List (SExp × SExp))) (var : SExp) : Option SExp :=
  match fs with
  | [] => none
  | f :: fs' =>
    match frame_find f var with
    | some x => some x
    | none => env_lookup fs' var

/-- Overwrite the first matching binding across the frame chain. -/
def env_update (fs : List (List (SExp × SExp))) (var val : SExp) :
    List (List (SExp × SExp)) :=
  match fs with
  | [] => []
  | f :: fs' =>
    match frame_find f var with
    | some _ => frame_update f var val :: fs'
    | none => f :: env_update fs' var val

theorem frame_update_fst (f : List (SExp × SExp)) (var val : SExp) :
    (frame_update f var val).map Prod.fst = f.map Prod.fst := by
  induction f with
  | nil => rfl
  | cons vx f' ih =>
    obtain ⟨v, x⟩ := vx
    by_cases hv : eq v var
    · simp [frame_update, hv]
    · simp [frame_update, hv, ih]

theorem frame_find_update (f : List (SExp × SExp)) (var val : SExp)
    (x : SExp) (hx : frame_find f var = some x) :
    frame_find (frame_update f var val) var = some val := by
  induction f with
  | nil => cases hx
  | cons vx f' ih =>
    obtain ⟨v, y⟩ := vx
    by_cases hv : eq v var
    · simp [frame_update, frame_find, hv]
    · simp only [frame_find, hv, if_false, Bool.false_eq_true] at hx
      simp [frame_update, frame_find, hv, ih hx]

theorem env_lookup_update (fs : List (List (SExp × SExp))) (var val : SExp)
    (x : SExp) (hx : env_lookup fs var = some x) :
    env_lookup (env_update fs var val) var = some val := by
  induction fs with
  | nil => cases hx
  | cons f fs' ih =>
    cases hf : frame_find f var with
    | some y =>
      simp [env_update, hf, env_lookup, frame_find_update f var val y hf]
    | none =>
      simp only [env_lookup, hf] at hx
      simp [env_update, hf, env_lookup, ih hx]

theorem ListRep_idx {h : Heap} {e : SExp} {xs : List SExp} {as : List Nat}
    (hr : ListRep h e xs as) :
    ∀ (k j : Nat), as[k]? = some j →
      ∃ (x d : SExp), xs[k]? = some x ∧ h[j]? = some (x, d) := by
  induction hr with
  | nil => intro k j hk; simp at hk
  | @cons i x0 dd xs' as' hc hrest ih =>
    intro k j hk
    match k with
    | 0 =>
      have hij : i = j := by simpa using hk
      subst hij
      exact ⟨x0, dd, by simp, hc⟩
    | k + 1 =>
      obtain ⟨x, d, hx, hj⟩ := ih k j (by simpa using hk)
      exact ⟨x, d, by simpa using hx, hj⟩

theorem ListRep_set_at {h : Heap} {e : SExp} {xs : List SExp}
    {as : List Nat} (hr : ListRep h e xs as) (hnd : as.Nodup) :
    ∀ k j x d val, as[k]? = some j → h[j]? = some (x, d) →
      ListRep (h.set j (val, d)) e (xs.set k val) as := by
  induction hr with
  | nil => intro k j x d val hk; simp at hk
  | @cons i x0 dd xs' as' hc hrest ih =>
    intro k j x d val hk hj
    match k with
    | 0 =>
      have hij : i = j := by simpa using hk
      subst hij
      rw [hc] at hj
      injection hj with hj1
      injection hj1 with hx hd
      subst hx
      subst hd
      have hlt : i < h.length := get?_some_lt hc
      have hnotin : i ∉ as' := (List.nodup_cons.mp hnd).1
      refine ?_
      simp only [List.set]
      exact ListRep.cons (get?_set_self _ hlt)
        (ListRep_frame hrest fun i2 hi2 =>
          get?_set_other _ (fun hji => hnotin (hji ▸ hi2)))
    | k + 1 =>
      have hk' : as'[k]? = some j := by simpa using hk
      have hmem : j ∈ as' := List.getElem?_mem hk'
      have hne : i ≠ j := fun hij => (List.nodup_cons.mp hnd).1 (hij ▸ hmem)
      exact ListRep.cons
        (show (h.set j (val, d))[i]? = some (x0, dd) by
          rw [get?_set_other _ (fun hji => hne hji.symm)]; exact hc)
        (ih (List.nodup_cons.mp hnd).2 k j x d val hk' hj)

/-- The parallel walk of `env_find_local` against the abstraction: a miss
returns nil; a hit at the first matching position `k` returns the vals
suffix cell, whose address is `bs[k]` and whose car is the bound value, and
overwriting that binding is `List.set` at `k` on the values. -/
theorem env_find_loop_spec {h : Heap} {var : SExp} :
    ∀ (f : List (SExp × SExp)) (vars vals : SExp) (as bs : List Nat)
      (fuel : Nat), ListRep h vars (f.map Prod.fst) as →
      ListRep h vals (f.map Prod.snd) bs → f.length + 1 ≤ fuel →
      (frame_find f var = none →
          env_find_loop fuel vars vals var h = .ok .nil) ∧
      (∀ x, frame_find f var = some x → ∃ (k j : Nat) (d : SExp),
        bs[k]? = some j ∧ (f.map Prod.snd)[k]? = some x ∧
        h[j]? = some (x, d) ∧
        env_find_loop fuel vars vals var h = .ok (.ref j) ∧
        ∀ val, (frame_update f var val).map Prod.snd
          = (f.map Prod.snd).set k val) := by
  intro f
  induction f with
  | nil =>
    intro vars vals as bs fuel hvars hvals hfuel
    cases hvars
    obtain ⟨g, rfl⟩ : ∃ g, fuel = g + 1 := ⟨fuel - 1, by omega⟩
    constructor
    · intro _
      simp [env_find_loop, is_nil]
    · intro x hx
      simp [frame_find] at hx
  | cons vx f' ih =>
    obtain ⟨v, x0⟩ := vx
    intro vars vals as bs fuel hvars hvals hfuel
    cases hvars with
    | @cons i _ vars' _ as' hi hvars' =>
    cases hvals with
    | @cons j0 _ vals' _ bs' hj0 hvals' =>
    obtain ⟨g, rfl⟩ : ∃ g, fuel = g + 1 := ⟨fuel - 1, by omega⟩
    have hg : f'.length + 1 ≤ g := by
      simp at hfuel
      omega
    by_cases hv : eq v var
    · constructor
      · intro hnone
        simp [frame_find, hv] at hnone
      · intro x hx
        have hx0 : x0 = x := by simpa [frame_find, hv] using hx
        subst hx0
        refine ⟨0, j0, vals', by simp, by simp, hj0, ?_, ?_⟩
        · simp [env_find_loop, is_nil, car, hi, hv]
        · intro val
          simp [frame_update, hv]
    · have hstep : env_find_loop (g + 1) (.ref i) (.ref j0) var h
          = env_find_loop g vars' vals' var h := by
        simp [env_find_loop, is_nil, car, cdr, hi, hj0, hv]
      obtain ⟨ihnone, ihsome⟩ := ih vars' vals' as' bs' g hvars' hvals' hg
      constructor
      · intro hnone
        rw [hstep]
        exact ihnone (by simpa [frame_find, hv] using hnone)
      · intro x hx
        have hx' : frame_find f' var = some x := by
          simpa [frame_find, hv] using hx
        obtain ⟨k, j, d, hbs, hfx, hj, hloop, hupd⟩ := ihsome x hx'
        refine ⟨k + 1, j, d, by simpa using hbs, by simpa using hfx, hj,
          by rw [hstep]; exact hloop, ?_⟩
        intro val
        simp [frame_update, hv, hupd val]

/-- `env_find_local` against the abstraction, including the in-place
overwrite of a found binding (`set_car` on the returned vals cell). -/
theorem env_find_local_spec {h : Heap} {var : SExp} {e : Nat}
    {pr outer : SExp} {f : List (SExp × SExp)} {A : List Nat}
    (he : h[e]? = some (pr, outer)) (hf : FrameRep h pr f A)
    (hnd : A.Nodup) {fuel : Nat} (hfuel : f.length + 1 ≤ fuel) :
    (frame_find f var = none →
        env_find_local fuel (.ref e) var h = .ok .nil) ∧
    (∀ x, frame_find f var = some x → ∃ (j : Nat) (d : SExp),
      j ∈ A ∧ h[j]? = some (x, d) ∧
      env_find_local fuel (.ref e) var h = .ok (.ref j) ∧
      ∀ val, FrameRep (h.set j (val, d)) pr (frame_update f var val) A) := by
  cases hf with
  | @mk p vars vals _ asv bsv hp hvars hvals =>
  have hnd2 := List.nodup_cons.mp hnd
  have hnd3 := List.nodup_append.mp hnd2.2
  have hloc : ∀ r, env_find_local fuel (.ref e) var h = r ↔
      env_find_loop fuel vars vals var h = r := by
    intro r
    simp [env_find_local, car, cdr, he, hp]
  obtain ⟨hnone, hsome⟩ :=
    env_find_loop_spec f vars vals asv bsv fuel hvars hvals hfuel
  constructor
  · intro hn
    exact (hloc _).mpr (hnone hn)
  · intro x hx
    obtain ⟨k, j, d, hbs, hfx, hj, hloop, hupd⟩ := hsome x hx
    have hjbs : j ∈ bsv := List.getElem?_mem hbs
    have hjA : j ∈ p :: (asv ++ bsv) :=
      List.mem_cons_of_mem _ (List.mem_append_right _ hjbs)
    refine ⟨j, d, hjA, hj, (hloc _).mpr hloop, ?_⟩
    intro val
    have hjp : j ≠ p := fun hjp =>
      hnd2.1 (hjp ▸ List.mem_append_right _ hjbs)
    have hjas : j ∉ asv := fun hin => hnd3.2.2 hin hjbs
    exact @FrameRep.mk (h.set j (val, d)) p vars vals
      (frame_update f var val) asv bsv
      (by rw [get?_set_other _ hjp]; exact hp)
      (by
        rw [frame_update_fst]
        exact ListRep_frame hvars fun i hi =>
          get?_set_other _ (fun hji => hjas (hji ▸ hi)))
      (by
        rw [hupd val]
        exact ListRep_set_at hvals hnd3.2.1 k j x d val hbs hj)

/-- Fuel sufficient for a global walk over the abstract frames. -/
def env_fuel : List (List (SExp × SExp)) → Nat
  | [] => 1
  | f :: fs => f.length + 2 + env_fuel fs

theorem env_fuel_pos (fs : List (List (SExp × SExp))) : 1 ≤ env_fuel fs := by
  cases fs with
  | nil => simp [env_fuel]
  | cons f fs' => simp [env_fuel]; omega

/-- `env_find_global` against the abstraction, including the in-place
overwrite of a found binding. -/
theorem env_find_global_spec {h : Heap} {var : SExp} :
    ∀ (fs : List (List (SExp × SExp))) (env : SExp) (A : List Nat)
      (fuel : Nat), EnvRep h env fs A → A.Nodup → env_fuel fs ≤ fuel →
      (env_lookup fs var = none →
          env_find_global fuel env var h = .ok .nil) ∧
      (∀ x, env_lookup fs var = some x → ∃ (j : Nat) (d : SExp),
        j ∈ A ∧ h[j]? = some (x, d) ∧
        env_find_global fuel env var h = .ok (.ref j) ∧
        ∀ val, EnvRep (h.set j (val, d)) env (env_update fs var val) A) := by
  intro fs
  induction fs with
  | nil =>
    intro env A fuel hr hnd hfuel
    cases hr
    have h1 : 1 ≤ fuel := le_trans (env_fuel_pos []) hfuel
    obtain ⟨g, rfl⟩ : ∃ g, fuel = g + 1 := ⟨fuel - 1, by omega⟩
    constructor
    · intro _
      simp [env_find_global, is_nil]
    · intro x hx
      simp [env_lookup] at hx
  | cons f fs' ih =>
    intro env A fuel hr hnd hfuel
    cases hr with
    | @cons e pr outer _ _ asf bso he hf hrest =>
    have h1 : 1 ≤ fuel := le_trans (env_fuel_pos (f :: fs')) hfuel
    obtain ⟨g, rfl⟩ : ∃ g, fuel = g + 1 := ⟨fuel - 1, by omega⟩
    have hnd2 := List.nodup_cons.mp hnd
    have hnd3 := List.nodup_append.mp hnd2.2
    have hgf : f.length + 1 ≤ g := by
      simp [env_fuel] at hfuel
      have := env_fuel_pos fs'
      omega
    have hgfs : env_fuel fs' ≤ g := by
      simp [env_fuel] at hfuel
      omega
    obtain ⟨hlnone, hlsome⟩ :=
      @env_find_local_spec h var e pr outer f asf he hf hnd3.1 g hgf
    by_cases hff : ∃ x, frame_find f var = some x
    · obtain ⟨x, hx⟩ := hff
      obtain ⟨j, d, hjA, hj, hloc, hupd⟩ := hlsome x hx
      have hjas : j ∈ asf := hjA
      have hstep : env_find_global (g + 1) (.ref e) var h = .ok (.ref j) := by
        simp [env_find_global, is_nil, hloc]
      constructor
      · intro hn
        simp [env_lookup, hx] at hn
      · intro y hy
        have hxy : x = y := by
          simp [env_lookup, hx] at hy
          exact hy
        subst hxy
        refine ⟨j, d,
          List.mem_cons_of_mem _ (List.mem_append_left _ hjas), hj, hstep,
          ?_⟩
        intro val
        have hje : j ≠ e := fun hje =>
          hnd2.1 (hje ▸ List.mem_append_left _ hjas)
        have hjbs : j ∉ bso := fun hin => hnd3.2.2 hjas hin
        have henv : env_update (f :: fs') var val
            = frame_update f var val :: fs' := by
          simp [env_update, hx]
        rw [henv]
        exact @EnvRep.cons (h.set j (val, d)) e pr outer
          (frame_update f var val) fs' asf bso
          (by rw [get?_set_other _ hje]; exact he) (hupd val)
          (EnvRep_frame hrest fun i hi =>
            get?_set_other _ (fun hji => hjbs (hji ▸ hi)))
    · push_neg at hff
      have hx : frame_find f var = none := by
        cases hxx : frame_find f var with
        | none => rfl
        | some x => exact absurd hxx (hff x)
      have hloc := hlnone hx
      have hstep : env_find_global (g + 1) (.ref e) var h
          = env_find_global g outer var h := by
        simp [env_find_global, is_nil, hloc, env_outer, cdr, he]
      obtain ⟨ihnone, ihsome⟩ := ih outer bso g hrest hnd3.2.1 hgfs
      constructor
      · intro hn
        rw [hstep]
        exact ihnone (by simpa [env_lookup, hx] using hn)
      · intro x hxx
        have hx' : env_lookup fs' var = some x := by
          simpa [env_lookup, hx] using hxx
        obtain ⟨j, d, hjA, hj, hglob, hupd⟩ := ihsome x hx'
        have hje : j ≠ e := fun hje =>
          hnd2.1 (hje ▸ List.mem_append_right _ hjA)
        have hjasf : j ∉ asf := fun hin => hnd3.2.2 hin hjA
        refine ⟨j, d,
          List.mem_cons_of_mem _ (List.mem_append_right _ hjA), hj,
          by rw [hstep]; exact hglob, ?_⟩
        intro val
        have henv : env_update (f :: fs') var val
            = f :: env_update fs' var val := by
          simp [env_update, hx]
        rw [henv]
        exact @EnvRep.cons (h.set j (val, d)) e pr outer f
          (env_update fs' var val) asf bso
          (by rw [get?_set_other _ hje]; exact he)
          (FrameRep_frame hf fun i hi =>
            get?_set_other _ (fun hji => hjasf (hji ▸ hi)))
          (hupd val)

theorem frame_update_length (f : List (SExp × SExp)) (var val : SExp) :
    (frame_update f var val).length = f.length := by
  induction f with
  | nil => rfl
  | cons vx f' ih =>
    obtain ⟨v, x⟩ := vx
    by_cases hv : eq v var
    · simp [frame_update, hv]
    · simp [frame_update, hv, ih]

theorem env_fuel_update (fs : List (List (SExp × SExp))) (var val : SExp) :
    env_fuel (env_update fs var val) = env_fuel fs := by
  induction fs with
  | nil => rfl
  | cons f fs' ih =>
    cases hf : frame_find f var with
    | some x => simp [env_update, hf, env_fuel, frame_update_length]
    | none => simp [env_update, hf, env_fuel, ih]

/-- `env_push` against the abstraction: two fresh cells are consed onto the
top frame's vars and vals and the frame pair is overwritten in place; the
frame invariant (parallel proper lists, all cells distinct) is
preserved, old cells outside the environment are untouched. -/
theorem env_push_spec {h : Heap} {env : SExp}
    {f : List (SExp × SExp)} {fs : List (List (SExp × SExp))}
    {A : List Nat} (hr : EnvRep h env (f :: fs) A) (hnd : A.Nodup)
    (var val : SExp) :
    ∃ (h' : Heap) (A' : List Nat),
      env_push env var val h = .ok h' ∧
      EnvRep h' env (((var, val) :: f) :: fs) A' ∧ A'.Nodup ∧
      h'.length = h.length + 2 ∧
      (∀ i ∈ A', i ∈ A ∨ h.length ≤ i) ∧
      (∀ i, i < h.length → i ∉ A → h'[i]? = h[i]?) := by
  cases hr with
  | @cons e pr outer _ _ asf B he hf hrest =>
  cases hf with
  | @mk p vars vals _ asv bsv hp hvars hvals =>
  have hlt := EnvRep_addr_lt
    (EnvRep.cons he (FrameRep.mk hp hvars hvals) hrest)
  have hplt : p < h.length := get?_some_lt hp
  have helt : e < h.length := get?_some_lt he
  set n := h.length with hn
  set h1 : Heap := h ++ [(var, vars)] with hh1
  set h2 : Heap := h1.set p (.ref n, vals) with hh2
  set h3 : Heap := h2 ++ [(val, vals)] with hh3
  set h' : Heap := h3.set p (.ref n, .ref (n + 1)) with hh'
  have h1p : h1[p]? = some (vars, vals) := by
    rw [hh1, get?_append_left hplt]; exact hp
  have h2len : h2.length = n + 1 := by
    simp [hh2, hh1]
  have h2p : h2[p]? = some (.ref n, vals) := by
    rw [hh2]
    exact get?_set_self _ (by simp [hh1]; omega)
  have h3p : h3[p]? = some (.ref n, vals) := by
    rw [hh3, get?_append_left (by rw [h2len]; omega)]
    exact h2p
  have hpush : env_push (.ref e) var val h = .ok h' := by
    simp [env_push, car, cdr, he, hp, cons, set_car, set_cdr, h1p, h2p,
      h3p, hh1, hh2, hh3, hh']
  have hlen : h'.length = h.length + 2 := by
    simp [hh', hh3, h2len]
  have hold : ∀ i, i < h.length → i ≠ p → h'[i]? = h[i]? := by
    intro i hi hip
    rw [hh', get?_set_other _ (fun hpi => hip hpi.symm), hh3,
      get?_append_left (by rw [h2len]; omega), hh2,
      get?_set_other _ (fun hpi => hip hpi.symm), hh1,
      get?_append_left hi]
  have hp' : h'[p]? = some (.ref n, .ref (n + 1)) := by
    rw [hh']
    exact get?_set_self _ (by rw [hh3]; simp [h2len]; omega)
  have hn' : h'[n]? = some (var, vars) := by
    rw [hh', get?_set_other _ (fun hpn => by omega), hh3,
      get?_append_left (by rw [h2len]; omega), hh2,
      get?_set_other _ (fun hpn => by omega), hh1]
    simpa [hn] using List.getElem?_concat_length h (var, vars)
  have hn1' : h'[n + 1]? = some (val, vals) := by
    rw [hh', get?_set_other _ (fun hpn => by omega), hh3]
    have : n + 1 = h2.length := by omega
    rw [this]
    exact List.getElem?_concat_length h2 (val, vals)
  have hndc := List.nodup_cons.mp hnd
  have hndapp := List.nodup_append.mp hndc.2
  have hndf := List.nodup_cons.mp hndapp.1
  have hndfapp := List.nodup_append.mp hndf.2
  -- transfers of the old representations into h'
  have htrans : ∀ (x : SExp) (xs : List SExp) (cs : List Nat),
      ListRep h x xs cs →
      (∀ i ∈ cs, i ∈ e :: ((p :: (asv ++ bsv)) ++ B)) → p ∉ cs →
      ListRep h' x xs cs := by
    intro x xs cs hrep hmem hpcs
    exact ListRep_frame hrep fun i hi =>
      hold i (ListRep_addr_lt hrep i hi) (fun hip => hpcs (hip ▸ hi))
  have hvars' : ListRep h' vars (f.map Prod.fst) asv :=
    htrans _ _ _ hvars
      (fun i hi => List.mem_cons_of_mem _
        (List.mem_append_left _ (List.mem_cons_of_mem _
          (List.mem_append_left _ hi))))
      (fun hin => hndf.1 (List.mem_append_left _ hin))
  have hvals' : ListRep h' vals (f.map Prod.snd) bsv :=
    htrans _ _ _ hvals
      (fun i hi => List.mem_cons_of_mem _
        (List.mem_append_left _ (List.mem_cons_of_mem _
          (List.mem_append_right _ hi))))
      (fun hin => hndf.1 (List.mem_append_right _ hin))
  have hrest' : EnvRep h' outer fs B := by
    refine EnvRep_frame hrest fun i hi => ?_
    refine hold i (EnvRep_addr_lt hrest i hi) fun hip => ?_
    exact hndapp.2.2 (List.mem_cons_self _ _) (hip ▸ hi)
  refine ⟨h', e :: ((p :: ((n :: asv) ++ ((n + 1) :: bsv))) ++ B), hpush,
    ?_, ?_, hlen, ?_, fun i hi hiA => hold i hi fun hip =>
      hiA (by
        rw [hip]
        exact List.mem_cons_of_mem _ (List.mem_append_left _
          (List.mem_cons_self _ _)))⟩
  · refine @EnvRep.cons h' e (.ref p) outer ((var, val) :: f) fs
      (p :: ((n :: asv) ++ ((n + 1) :: bsv))) B ?_ ?_ hrest'
    · rw [hold e helt (fun hep => hndc.1
        (hep ▸ List.mem_append_left _ (List.mem_cons_self _ _)))]
      exact he
    · exact @FrameRep.mk h' p (.ref n) (.ref (n + 1)) ((var, val) :: f)
        (n :: asv) ((n + 1) :: bsv) hp'
        (ListRep.cons hn' hvars')
        (ListRep.cons hn1' hvals')
  · -- Nodup of the extended address list, via a permutation that floats
    -- the two fresh addresses to the front
    have hperm : (e :: ((p :: ((n :: asv) ++ ((n + 1) :: bsv))) ++ B)).Perm
        (n :: ((n + 1) :: (e :: (p :: ((asv ++ bsv) ++ B))))) := by
      have h2 : ((asv ++ ((n + 1) :: bsv)) ++ B).Perm
          ((n + 1) :: ((asv ++ bsv) ++ B)) := by
        have := List.Perm.append_right B
          (@List.perm_middle Nat (n + 1) asv bsv)
        simpa using this
      have h3 : (((n :: asv) ++ ((n + 1) :: bsv)) ++ B).Perm
          (n :: ((n + 1) :: ((asv ++ bsv) ++ B))) := List.Perm.cons n h2
      have h4 : (e :: ((p :: ((n :: asv) ++ ((n + 1) :: bsv))) ++ B)).Perm
          (e :: (p :: (n :: ((n + 1) :: ((asv ++ bsv) ++ B))))) :=
        List.Perm.cons e (List.Perm.cons p h3)
      refine h4.trans ?_
      have h5 : (p :: (n :: ((n + 1) :: ((asv ++ bsv) ++ B)))).Perm
          (n :: ((n + 1) :: (p :: ((asv ++ bsv) ++ B)))) := by
        have := @List.perm_middle Nat p [n, n + 1] ((asv ++ bsv) ++ B)
        simpa using this.symm
      have h6 := List.Perm.cons e h5
      refine h6.trans ?_
      have := @List.perm_middle Nat e [n, n + 1] (p :: ((asv ++ bsv) ++ B))
      simpa using this.symm
    rw [hperm.nodup_iff]
    have hnd0 : (e :: (p :: ((asv ++ bsv) ++ B))).Nodup := hnd
    have hem : ∀ i ∈ e :: (p :: ((asv ++ bsv) ++ B)), i < n := hlt
    refine List.nodup_cons.mpr ⟨?_, List.nodup_cons.mpr ⟨?_, hnd0⟩⟩
    · intro hin
      rcases List.mem_cons.mp hin with h1 | h2
      · omega
      · have := hem n h2
        omega
    · intro hin
      have := hem (n + 1) hin
      omega
  · intro i hi
    have hsplit : i = n ∨ i = n + 1 ∨
        i ∈ e :: ((p :: (asv ++ bsv)) ++ B) := by
      simp only [List.mem_cons, List.mem_append, List.cons_append] at hi ⊢
      tauto
    rcases hsplit with rfl | rfl | hiA
    · exact Or.inr (by omega)
    · exact Or.inr (by omega)
    · exact Or.inl hiA

/-- `env_def` against the abstraction: overwrite a local binding in place,
or push a fresh one; the frame invariant is preserved either way. -/
theorem env_def_spec {h : Heap} {env : SExp} {f : List (SExp × SExp)}
    {fs : List (List (SExp × SExp))} {A : List Nat}
    (hr : EnvRep h env (f :: fs) A) (hnd : A.Nodup) {fuel : Nat}
    (hfuel : f.length + 1 ≤ fuel) (var val : SExp) :
    ∃ (h' : Heap) (A' : List Nat),
      env_def fuel env var val h = .ok h' ∧
      EnvRep h' env
        ((match frame_find f var with
          | some _ => frame_update f var val
          | none => (var, val) :: f) :: fs) A' ∧
      A'.Nodup ∧ h.length ≤ h'.length ∧
      (∀ i ∈ A', i ∈ A ∨ h.length ≤ i) ∧
      (∀ i, i < h.length → i ∉ A → h'[i]? = h[i]?) := by
  cases hr with
  | @cons e pr outer _ _ asf B he hf hrest =>
  have hnd2 := List.nodup_cons.mp hnd
  have hnd3 := List.nodup_append.mp hnd2.2
  obtain ⟨hlnone, hlsome⟩ :=
    @env_find_local_spec h var e pr outer f asf he hf hnd3.1 fuel hfuel
  cases hff : frame_find f var with
  | none =>
    have hloc := hlnone hff
    obtain ⟨h', A', hpush, hrep, hnd', hlen, hmem, hold⟩ :=
      env_push_spec (EnvRep.cons he hf hrest) hnd var val
    refine ⟨h', A', ?_, hrep, hnd', by omega, hmem, hold⟩
    simp [env_def, hloc, is_nil, hpush]
  | some x =>
    obtain ⟨j, d, hjA, hj, hloc, hupd⟩ := hlsome x hff
    have hje : j ≠ e := fun hje =>
      hnd2.1 (hje ▸ List.mem_append_left _ hjA)
    have hjB : j ∉ B := fun hin => hnd3.2.2 hjA hin
    refine ⟨h.set j (val, d), e :: (asf ++ B),
      by simp [env_def, hloc, is_nil, set_car, hj], ?_, hnd, by simp,
      fun i hi => Or.inl hi, fun i hi hiA => get?_set_other _ fun hji =>
        hiA (hji ▸ List.mem_cons_of_mem _ (List.mem_append_left _ hjA))⟩
    exact @EnvRep.cons (h.set j (val, d)) e pr outer
      (frame_update f var val) fs asf B
      (by rw [get?_set_other _ hje]; exact he) (hupd val)
      (EnvRep_frame hrest fun i hi =>
        get?_set_other _ (fun hji => hjB (hji ▸ hi)))

/-- Remove the first matching binding of one frame. -/
def frame_remove (f : List (SExp × SExp)) (var : SExp) :
    List (SExp × SExp) :=
  match f with
  | [] => []
  | (v, x) :: f' => if eq v var then f' else (v, x) :: frame_remove f' var

/-- The splice loop of `env_del` after the first iteration: `pa`/`pb` hold
the previously visited vars/vals cells, whose cdrs are rewired when the
match is found further down. -/
theorem env_del_loop_mid {h : Heap} {var pair : SExp} :
    ∀ (f' : List (SExp × SExp)) (vars' vals' : SExp) (as' bs' : List Nat)
      (pa pb : Nat) (pvx pwx : SExp) (fuel : Nat),
      ListRep h vars' (f'.map Prod.fst) as' →
      ListRep h vals' (f'.map Prod.snd) bs' →
      h[pa]? = some (pvx, vars') → h[pb]? = some (pwx, vals') →
      f'.length + 1 ≤ fuel →
      pa ∉ as' → pa ∉ bs' → pb ∉ as' → pb ∉ bs' → pa ≠ pb →
      as'.Nodup → bs'.Nodup → as'.Disjoint bs' →
      ∀ x, frame_find f' var = some x →
      ∃ (h'' : Heap) (tv tw : SExp) (as'' bs'' : List Nat),
        env_del_loop fuel pair vars' vals' (.ref pa) (.ref pb) var h
          = .ok h'' ∧
        h''.length = h.length ∧
        h''[pa]? = some (pvx, tv) ∧ h''[pb]? = some (pwx, tw) ∧
        ListRep h'' tv ((frame_remove f' var).map Prod.fst) as'' ∧
        ListRep h'' tw ((frame_remove f' var).map Prod.snd) bs'' ∧
        as''.Sublist as' ∧ bs''.Sublist bs' ∧
        (∀ i, i ≠ pa → i ≠ pb → i ∉ as' → i ∉ bs' → h''[i]? = h[i]?) := by
  intro f'
  induction f' with
  | nil =>
    intro vars' vals' as' bs' pa pb pvx pwx fuel hv hw hpa hpb hfuel
      h1 h2 h3 h4 h5 h6 h7 h8 x hx
    cases hx
  | cons vx f₂ ih =>
    obtain ⟨v, x0⟩ := vx
    intro vars' vals' as' bs' pa pb pvx pwx fuel hv hw hpa hpb hfuel
      hpaas hpabs hpbas hpbbs hpapb hndas hndbs hdisj x hx
    cases hv with
    | @cons i _ vars₂ _ as₂ hi hv₂ =>
    cases hw with
    | @cons j _ vals₂ _ bs₂ hj hw₂ =>
    obtain ⟨g, rfl⟩ : ∃ g, fuel = g + 1 := ⟨fuel - 1, by omega⟩
    have hilt : i < h.length := get?_some_lt hi
    have hjlt : j < h.length := get?_some_lt hj
    have hii : i ∉ as₂ := (List.nodup_cons.mp hndas).1
    have hjj : j ∉ bs₂ := (List.nodup_cons.mp hndbs).1
    have hij : i ≠ j := fun hij =>
      hdisj (List.mem_cons_self _ _) (hij ▸ List.mem_cons_self _ _)
    have hpai : pa ≠ i := fun hh => hpaas (hh ▸ List.mem_cons_self _ _)
    have hpaj : pa ≠ j := fun hh => hpabs (hh ▸ List.mem_cons_self _ _)
    have hpbi : pb ≠ i := fun hh => hpbas (hh ▸ List.mem_cons_self _ _)
    have hpbj : pb ≠ j := fun hh => hpbbs (hh ▸ List.mem_cons_self _ _)
    by_cases hveq : eq v var
    · -- match at the head of the suffix: rewire the two prev cells
      have hstep : env_del_loop (g + 1) pair (.ref i) (.ref j)
          (.ref pa) (.ref pb) var h
          = .ok ((h.set pa (pvx, vars₂)).set pb (pwx, vals₂)) := by
        simp [env_del_loop, is_nil, car, cdr, hi, hj, hveq, set_cdr, hpa]
        rw [get?_set_other _ hpapb, hpb]
      refine ⟨(h.set pa (pvx, vars₂)).set pb (pwx, vals₂), vars₂, vals₂,
        as₂, bs₂, hstep, by simp, ?_, ?_, ?_, ?_, ?_, ?_, ?_⟩
      · rw [get?_set_other _ (Ne.symm hpapb),
          get?_set_self _ (get?_some_lt hpa)]
      · rw [get?_set_self _ (by simpa using get?_some_lt hpb)]
      · simp only [frame_remove, hveq, if_true]
        exact ListRep_frame hv₂ fun k hk => by
          rw [get?_set_other _ (fun hh : pb = k => hpbas (by
              rw [hh]; exact List.mem_cons_of_mem _ hk)),
            get?_set_other _ (fun hh : pa = k => hpaas (by
              rw [hh]; exact List.mem_cons_of_mem _ hk))]
      · simp only [frame_remove, hveq, if_true]
        exact ListRep_frame hw₂ fun k hk => by
          rw [get?_set_other _ (fun hh : pb = k => hpbbs (by
              rw [hh]; exact List.mem_cons_of_mem _ hk)),
            get?_set_other _ (fun hh : pa = k => hpabs (by
              rw [hh]; exact List.mem_cons_of_mem _ hk))]
      · exact List.sublist_cons_self i as₂
      · exact List.sublist_cons_self j bs₂
      · intro k hka hkb _ _
        rw [get?_set_other _ (Ne.symm hkb), get?_set_other _ (Ne.symm hka)]
    · -- walk on: the current cells become the prev cells
      have hx₂ : frame_find f₂ var = some x := by
        simpa [frame_find, hveq] using hx
      have hg : f₂.length + 1 ≤ g := by
        simp at hfuel
        omega
      obtain ⟨h'', tv₂, tw₂, as₂'', bs₂'', hloop, hlen, hi', hj', hrv,
          hrw, hsv, hsw, hout⟩ :=
        ih vars₂ vals₂ as₂ bs₂ i j v x0 g hv₂ hw₂ hi hj hg hii
          (fun hin => hdisj (List.mem_cons_self _ _)
            (List.mem_cons_of_mem _ hin))
          (fun hin => hdisj (List.mem_cons_of_mem _ hin)
            (List.mem_cons_self _ _))
          hjj hij (List.nodup_cons.mp hndas).2 (List.nodup_cons.mp hndbs).2
          (fun a ha hb => hdisj (List.mem_cons_of_mem _ ha)
            (List.mem_cons_of_mem _ hb))
          x hx₂
      have hstep : env_del_loop (g + 1) pair (.ref i) (.ref j)
          (.ref pa) (.ref pb) var h
          = env_del_loop g pair vars₂ vals₂ (.ref i) (.ref j) var h := by
        simp [env_del_loop, is_nil, car, cdr, hi, hj, hveq]
      have hpaout : h''[pa]? = h[pa]? :=
        hout pa hpai hpaj
          (fun hin => hpaas (List.mem_cons_of_mem _ hin))
          (fun hin => hpabs (List.mem_cons_of_mem _ hin))
      have hpbout : h''[pb]? = h[pb]? :=
        hout pb hpbi hpbj
          (fun hin => hpbas (List.mem_cons_of_mem _ hin))
          (fun hin => hpbbs (List.mem_cons_of_mem _ hin))
      refine ⟨h'', .ref i, .ref j, i :: as₂'', j :: bs₂'',
        hstep.trans hloop, hlen, by rw [hpaout]; exact hpa,
        by rw [hpbout]; exact hpb, ?_, ?_,
        List.Sublist.cons₂ _ hsv, List.Sublist.cons₂ _ hsw, ?_⟩
      · simp only [frame_remove, hveq, if_false, Bool.false_eq_true,
          List.map_cons]
        exact ListRep.cons hi' hrv
      · simp only [frame_remove, hveq, if_false, Bool.false_eq_true,
          List.map_cons]
        exact ListRep.cons hj' hrw
      · intro k hka hkb hkas hkbs
        exact hout k
          (fun hh => hkas (hh ▸ List.mem_cons_self _ _))
          (fun hh => hkbs (hh ▸ List.mem_cons_self _ _))
          (fun hin => hkas (List.mem_cons_of_mem _ hin))
          (fun hin => hkbs (List.mem_cons_of_mem _ hin))

/-- `env_del` on a locally present variable against the abstraction: the
first match is unlinked (by rewiring the frame pair or the previous cells)
and the frame invariant is preserved. -/
theorem env_del_spec {h : Heap} {env : SExp} {f : List (SExp × SExp)}
    {fs : List (List (SExp × SExp))} {A : List Nat}
    (hr : EnvRep h env (f :: fs) A) (hnd : A.Nodup) {fuel : Nat}
    (hfuel : f.length + 2 ≤ fuel) (var x : SExp)
    (hx : frame_find f var = some x) :
    ∃ (h' : Heap) (A' : List Nat),
      env_del fuel env var h = .ok h' ∧
      EnvRep h' env (frame_remove f var :: fs) A' ∧ A'.Nodup := by
  cases hr with
  | @cons e pr outer _ _ asf B he hf hrest =>
  cases hf with
  | @mk p vars vals _ asv bsv hp hvars hvals =>
  have hnd2 := List.nodup_cons.mp hnd
  have hnd3 := List.nodup_append.mp hnd2.2
  have hnd4 := List.nodup_cons.mp hnd3.1
  have hnd5 := List.nodup_append.mp hnd4.2
  have hplt : p < h.length := get?_some_lt hp
  have helt : e < h.length := get?_some_lt he
  have hep : e ≠ p := fun hep =>
    hnd2.1 (hep ▸ List.mem_append_left _ (List.mem_cons_self _ _))
  have hpB : p ∉ B := fun hin =>
    hnd3.2.2 (List.mem_cons_self _ _) hin
  match f, hx with
  | (v, x0) :: f₂, hx =>
  cases hvars with
  | @cons i _ vars₂ _ as₂ hi hv₂ =>
  cases hvals with
  | @cons j _ vals₂ _ bs₂ hj hw₂ =>
  obtain ⟨g, rfl⟩ : ∃ g, fuel = g + 1 := ⟨fuel - 1, by omega⟩
  have hpi : p ∉ i :: as₂ := fun hin =>
    hnd4.1 (List.mem_append_left _ hin)
  have hpj : p ∉ j :: bs₂ := fun hin =>
    hnd4.1 (List.mem_append_right _ hin)
  have hdel : env_del (g + 1) (.ref e) var h
      = env_del_loop (g + 1) (.ref p) (.ref i) (.ref j) .nil .nil var h := by
    simp [env_del, car, cdr, he, hp]
  by_cases hveq : eq v var
  · -- the head of the frame matches: the frame pair is rewired
    have hstep : env_del_loop (g + 1) (.ref p) (.ref i) (.ref j)
        .nil .nil var h
        = .ok ((h.set p (vars₂, .ref j)).set p (vars₂, vals₂)) := by
      simp [env_del_loop, is_nil, car, cdr, hi, hj, hveq, set_car,
        set_cdr, hp]
      rw [get?_set_self _ hplt]
    have hset : (h.set p (vars₂, .ref j)).set p (vars₂, vals₂)
        = h.set p (vars₂, vals₂) := by simp [List.set_set]
    have hold : ∀ k, k ≠ p → (h.set p (vars₂, vals₂))[k]? = h[k]? :=
      fun k hk => get?_set_other _ (fun hh => hk hh.symm)
    refine ⟨h.set p (vars₂, vals₂), e :: ((p :: (as₂ ++ bs₂)) ++ B),
      by rw [hdel, hstep, hset], ?_, ?_⟩
    · refine @EnvRep.cons _ e (.ref p) outer (frame_remove ((v, x0) :: f₂)
        var) fs (p :: (as₂ ++ bs₂)) B
        (by rw [hold e hep]; exact he) ?_
        (EnvRep_frame hrest fun k hk =>
          hold k (fun hkp => hpB (hkp ▸ hk)))
      simp only [frame_remove, hveq, if_true]
      refine @FrameRep.mk _ p vars₂ vals₂ f₂ as₂ bs₂
        (get?_set_self _ hplt) ?_ ?_
      · exact ListRep_frame hv₂ fun k hk =>
          hold k (fun hkp => hpi (hkp ▸ List.mem_cons_of_mem _ hk))
      · exact ListRep_frame hw₂ fun k hk =>
          hold k (fun hkp => hpj (hkp ▸ List.mem_cons_of_mem _ hk))
    · refine List.Nodup.sublist ?_ hnd
      refine List.Sublist.cons₂ _ (List.Sublist.append ?_ (by rfl))
      exact List.Sublist.cons₂ _
        (List.Sublist.append (List.sublist_cons_self _ _)
          (List.sublist_cons_self _ _))
  · -- the match is further down: the splice loop rewires previous cells
    have hx₂ : frame_find f₂ var = some x := by
      simpa [frame_find, hveq] using hx
    have hg : f₂.length + 1 ≤ g := by
      simp at hfuel
      omega
    have hii : i ∉ as₂ := (List.nodup_cons.mp hnd5.1).1
    have hjj : j ∉ bs₂ := (List.nodup_cons.mp hnd5.2.1).1
    have hij : i ≠ j := fun hij =>
      hnd5.2.2 (List.mem_cons_self _ _) (hij ▸ List.mem_cons_self _ _)
    obtain ⟨h'', tv₂, tw₂, as₂'', bs₂'', hloop, hlen, hi', hj', hrv, hrw,
        hsv, hsw, hout⟩ :=
      @env_del_loop_mid h var (.ref p) f₂ vars₂ vals₂ as₂ bs₂ i j v x0 g
        hv₂ hw₂ hi hj hg hii
        (fun hin => hnd5.2.2 (List.mem_cons_self _ _)
          (List.mem_cons_of_mem _ hin))
        (fun hin => hnd5.2.2 (List.mem_cons_of_mem _ hin)
          (List.mem_cons_self _ _))
        hjj hij (List.nodup_cons.mp hnd5.1).2 (List.nodup_cons.mp hnd5.2.1).2
        (fun a ha hb => hnd5.2.2 (List.mem_cons_of_mem _ ha)
          (List.mem_cons_of_mem _ hb))
        x hx₂
    have hstep : env_del_loop (g + 1) (.ref p) (.ref i) (.ref j)
        .nil .nil var h
        = env_del_loop g (.ref p) vars₂ vals₂ (.ref i) (.ref j) var h := by
      simp [env_del_loop, is_nil, car, cdr, hi, hj, hveq]
    have houtp : h''[p]? = h[p]? :=
      hout p (fun hh => hpi (hh ▸ List.mem_cons_self _ _))
        (fun hh => hpj (hh ▸ List.mem_cons_self _ _))
        (fun hin => hpi (List.mem_cons_of_mem _ hin))
        (fun hin => hpj (List.mem_cons_of_mem _ hin))
    have houte : h''[e]? = h[e]? := by
      refine hout e ?_ ?_ ?_ ?_
      · intro hh
        exact hnd2.1 (hh ▸ List.mem_append_left _
          (List.mem_cons_of_mem _ (List.mem_append_left _
            (List.mem_cons_self _ _))))
      · intro hh
        exact hnd2.1 (hh ▸ List.mem_append_left _
          (List.mem_cons_of_mem _ (List.mem_append_right _
            (List.mem_cons_self _ _))))
      · intro hin
        exact hnd2.1 (List.mem_append_left _
          (List.mem_cons_of_mem _ (List.mem_append_left _
            (List.mem_cons_of_mem _ hin))))
      · intro hin
        exact hnd2.1 (List.mem_append_left _
          (List.mem_cons_of_mem _ (List.mem_append_right _
            (List.mem_cons_of_mem _ hin))))
    refine ⟨h'', e :: ((p :: ((i :: as₂'') ++ (j :: bs₂''))) ++ B),
      by rw [hdel, hstep]; exact hloop, ?_, ?_⟩
    · refine @EnvRep.cons _ e (.ref p) outer (frame_remove ((v, x0) :: f₂)
        var) fs (p :: ((i :: as₂'') ++ (j :: bs₂''))) B
        (by rw [houte]; exact he) ?_ ?_
      · simp only [frame_remove, hveq, if_false, Bool.false_eq_true,
          List.map_cons]
        exact @FrameRep.mk _ p (.ref i) (.ref j)
          ((v, x0) :: frame_remove f₂ var) (i :: as₂'') (j :: bs₂'')
          (by rw [houtp]; exact hp)
          (ListRep.cons hi' hrv) (ListRep.cons hj' hrw)
      · refine EnvRep_frame hrest fun k hk => ?_
        refine hout k ?_ ?_ ?_ ?_
        · intro hh
          exact hnd3.2.2 (List.mem_cons_of_mem _ (List.mem_append_left _
            (List.mem_cons_self _ _))) (hh ▸ hk)
        · intro hh
          exact hnd3.2.2 (List.mem_cons_of_mem _ (List.mem_append_right _
            (List.mem_cons_self _ _))) (hh ▸ hk)
        · intro hin
          exact hnd3.2.2 (List.mem_cons_of_mem _ (List.mem_append_left _
            (List.mem_cons_of_mem _ hin))) hk
        · intro hin
          exact hnd3.2.2 (List.mem_cons_of_mem _ (List.mem_append_right _
            (List.mem_cons_of_mem _ hin))) hk
    · refine List.Nodup.sublist ?_ hnd
      refine List.Sublist.cons₂ _ (List.Sublist.append ?_ (by rfl))
      exact List.Sublist.cons₂ _
        (List.Sublist.append (List.Sublist.cons₂ _ hsv)
          (List.Sublist.cons₂ _ hsw))

/-- `ChainRep h t e xs as`: `e` is a cons chain with elements `xs` ending
in the terminator expression `t` (with `t = nil` this is a proper list;
with a non-nil atom it is the dotted rest-parameter shape of `env_dbind`). -/
inductive ChainRep (h : Heap) (t : SExp) : SExp → List SExp → List Nat →
    Prop
  | nil : ChainRep h t t [] []
  | cons {i : Nat} {x d : SExp} {xs : List SExp} {as : List Nat} :
      h[i]? = some (x, d) → ChainRep h t d xs as →
      ChainRep h t (.ref i) (x :: xs) (i :: as)

theorem ChainRep_addr_lt {h : Heap} {t e : SExp} {xs : List SExp}
    {as : List Nat} (hr : ChainRep h t e xs as) :
    ∀ i ∈ as, i < h.length := by
  induction hr with
  | nil => intro i hi; cases hi
  | cons hc _ ih =>
    intro i hi
    rcases List.mem_cons.mp hi with hh | ht
    · subst hh; exact get?_some_lt hc
    · exact ih i ht

theorem ChainRep_frame {h h2 : Heap} {t e : SExp} {xs : List SExp}
    {as : List Nat} (hr : ChainRep h t e xs as)
    (hag : ∀ i ∈ as, h2[i]? = h[i]?) : ChainRep h2 t e xs as := by
  induction hr with
  | nil => exact .nil
  | cons hc _ ih =>
    refine .cons ?_ (ih fun i hi => hag i (List.mem_cons_of_mem _ hi))
    rw [hag _ (List.mem_cons_self _ _)]
    exact hc

/-- The frame produced by one `env_def`. -/
def def_frame (f : List (SExp × SExp)) (var val : SExp) :
    List (SExp × SExp) :=
  match frame_find f var with
  | some _ => frame_update f var val
  | none => (var, val) :: f

theorem def_frame_length (f : List (SExp × SExp)) (var val : SExp) :
    (def_frame f var val).length ≤ f.length + 1 := by
  unfold def_frame
  cases hf : frame_find f var with
  | some x => simp [frame_update_length]
  | none => simp

/-- The `while is_cons(vars)` loop of `env_dbind` with a flat parameter
chain: every traversed element is a non-cons binder (nil binders are
skipped, others are `env_def`d), and a non-nil chain terminator is bound to
the remaining vals as a rest parameter.  The environment invariant is
preserved throughout. -/
theorem env_dbind_loop_spec {env t : SExp} (htc : is_cons t = false) :
    ∀ (vs : List SExp) (h : Heap) (vars vals : SExp) (ws : List SExp)
      (asv bsv : List Nat) (f : List (SExp × SExp))
      (fs : List (List (SExp × SExp))) (A : List Nat) (fuel : Nat),
      ChainRep h t vars vs asv → ListRep h vals ws bsv →
      vs.length ≤ ws.length → (∀ v ∈ vs, is_cons v = false) →
      EnvRep h env (f :: fs) A → A.Nodup →
      (∀ i ∈ asv, i ∉ A) → (∀ i ∈ bsv, i ∉ A) →
      f.length + 3 * vs.length + 4 ≤ fuel →
      ∃ (h' : Heap) (f' : List (SExp × SExp)) (A' : List Nat),
        env_dbind_loop fuel env vars vals h = .ok h' ∧
        EnvRep h' env (f' :: fs) A' ∧ A'.Nodup ∧ h.length ≤ h'.length ∧
        f'.length ≤ f.length + vs.length + 1 ∧
        (∀ i ∈ A', i ∈ A ∨ h.length ≤ i) ∧
        (∀ i, i < h.length → i ∉ A → h'[i]? = h[i]?) := by
  intro vs
  induction vs with
  | nil =>
    intro h vars vals ws asv bsv f fs A fuel hcv hlw hlen hflat hr hnd
      hdas hdbs hfuel
    cases hcv
    obtain ⟨g, rfl⟩ : ∃ g, fuel = g + 1 := ⟨fuel - 1, by omega⟩
    have hstep : env_dbind_loop (g + 1) env t vals h
        = if is_nil t then .ok h else env_def (g + 1) env t vals h := by
      simp [env_dbind_loop, htc]
    by_cases htn : is_nil t
    · refine ⟨h, f, A, ?_, hr, hnd, le_refl _, by omega,
        fun i hi => Or.inl hi, fun i _ _ => rfl⟩
      rw [hstep, if_pos htn]
    · obtain ⟨h', A', hdef, hrep, hnd', hhl, hmem, hold⟩ :=
        env_def_spec hr hnd (show f.length + 1 ≤ g + 1 by omega) t vals
      refine ⟨h', def_frame f t vals, A', ?_, ?_, hnd', hhl, ?_, hmem,
        hold⟩
      · rw [hstep, if_neg htn]
        exact hdef
      · exact hrep
      · have := def_frame_length f t vals
        omega
  | cons v vs' ih =>
    intro h vars vals ws asv bsv f fs A fuel hcv hlw hlen hflat hr hnd
      hdas hdbs hfuel
    cases hcv with
    | @cons i _ vars₂ _ as₂ hi hcv₂ =>
    match ws, hlw with
    | w :: ws', hlw =>
    cases hlw with
    | @cons j _ vals₂ _ bs₂ hj hlw₂ =>
    obtain ⟨g, rfl⟩ : ∃ g, fuel = g + 1 := ⟨fuel - 1, by omega⟩
    have hilt : i < h.length := get?_some_lt hi
    have hjlt : j < h.length := get?_some_lt hj
    have hvflat : is_cons v = false := hflat v (List.mem_cons_self _ _)
    -- bind the head element: either a skipped nil binder or an env_def
    have helem : ∃ (h1 : Heap) (f1 : List (SExp × SExp)) (A1 : List Nat),
        env_dbind g env v w h = .ok h1 ∧
        EnvRep h1 env (f1 :: fs) A1 ∧ A1.Nodup ∧
        h.length ≤ h1.length ∧ f1.length ≤ f.length + 1 ∧
        (∀ k ∈ A1, k ∈ A ∨ h.length ≤ k) ∧
        (∀ k, k < h.length → k ∉ A → h1[k]? = h[k]?) := by
      obtain ⟨g2, rfl⟩ : ∃ g2, g = g2 + 1 := ⟨g - 1, by omega⟩
      by_cases hvn : is_nil v
      · refine ⟨h, f, A, ?_, hr, hnd, le_refl _, by omega,
          fun k hk => Or.inl hk, fun k _ _ => rfl⟩
        simp [env_dbind, hvn]
      · obtain ⟨g3, rfl⟩ : ∃ g3, g2 = g3 + 1 := ⟨g2 - 1, by omega⟩
        obtain ⟨h1, A1, hdef, hrep, hnd1, hhl, hmem, hold⟩ :=
          env_def_spec hr hnd (show f.length + 1 ≤ g3 + 1 by omega) v w
        refine ⟨h1, def_frame f v w, A1, ?_, hrep, hnd1, hhl, ?_, hmem,
          hold⟩
        · simp [env_dbind, hvn, env_dbind_loop, hvflat]
          exact hdef
        · have := def_frame_length f v w
          omega
    obtain ⟨h1, f1, A1, hbind, hrep1, hnd1, hlen1, hflen1, hmem1, hold1⟩ :=
      helem
    have hi1 : h1[i]? = some (v, vars₂) := by
      rw [hold1 i hilt (hdas i (List.mem_cons_self _ _))]
      exact hi
    have hj1 : h1[j]? = some (w, vals₂) := by
      rw [hold1 j hjlt (hdbs j (List.mem_cons_self _ _))]
      exact hj
    have hstep : env_dbind_loop (g + 1) env (.ref i) (.ref j) h
        = env_dbind_loop g env vars₂ vals₂ h1 := by
      simp [env_dbind_loop, is_cons, car, hi, hj, hbind, cdr, hi1, hj1]
    -- transfer the remaining chains into h1
    have htrans2 : ∀ k, k ∈ as₂ ∨ k ∈ bs₂ → h1[k]? = h[k]? := by
      intro k hk
      have hklt : k < h.length := by
        rcases hk with hk | hk
        · exact ChainRep_addr_lt hcv₂ k hk
        · exact ListRep_addr_lt hlw₂ k hk
      have hkA : k ∉ A := by
        rcases hk with hk | hk
        · exact hdas k (List.mem_cons_of_mem _ hk)
        · exact hdbs k (List.mem_cons_of_mem _ hk)
      exact hold1 k hklt hkA
    have hcv₂' : ChainRep h1 t vars₂ vs' as₂ :=
      ChainRep_frame hcv₂ fun k hk => htrans2 k (Or.inl hk)
    have hlw₂' : ListRep h1 vals₂ ws' bs₂ :=
      ListRep_frame hlw₂ fun k hk => htrans2 k (Or.inr hk)
    have hdas' : ∀ k ∈ as₂, k ∉ A1 := by
      intro k hk hkin
      rcases hmem1 k hkin with hkA | hkge
      · exact hdas k (List.mem_cons_of_mem _ hk) hkA
      · have := ChainRep_addr_lt hcv₂ k hk
        omega
    have hdbs' : ∀ k ∈ bs₂, k ∉ A1 := by
      intro k hk hkin
      rcases hmem1 k hkin with hkA | hkge
      · exact hdbs k (List.mem_cons_of_mem _ hk) hkA
      · have := ListRep_addr_lt hlw₂ k hk
        omega
    obtain ⟨h', f', A', hloop, hrep', hnd', hlen', hflen', hmem', hold'⟩ :=
      ih h1 vars₂ vals₂ ws' as₂ bs₂ f1 fs A1 g hcv₂' hlw₂'
        (by simpa using hlen) (fun u hu => hflat u (List.mem_cons_of_mem _ hu))
        hrep1 hnd1 hdas' hdbs'
        (by simp at hfuel; omega)
    refine ⟨h', f', A', by rw [hstep]; exact hloop, hrep', hnd',
      le_trans hlen1 hlen', by simp; omega, ?_, ?_⟩
    · intro k hk
      rcases hmem' k hk with hk1 | hkge
      · rcases hmem1 k hk1 with hkA | hkge2
        · exact Or.inl hkA
        · exact Or.inr hkge2
      · exact Or.inr (by omega)
    · intro k hklt hkA
      have hkA1 : k ∉ A1 := by
        intro hkin
        rcases hmem1 k hkin with hkA' | hkge
        · exact hkA hkA'
        · omega
      rw [hold' k (by omega) hkA1]
      exact hold1 k hklt hkA

/-- Proper-list length of a heap value (`nil`-terminated walk), the notion
used to state the frame invariant. -/
def list_length : Nat → SExp → Heap → Option Nat
  | 0, _, _ => none
  | fuel + 1, e, h =>
    match e with
    | .nil => some 0
    | .ref i =>
      match h[i]? with
      | some c => (list_length fuel c.2 h).map (· + 1)
      | none => none
    | _ => none

theorem ListRep_list_length {h : Heap} {e : SExp} {xs : List SExp}
    {as : List Nat} (hr : ListRep h e xs as) :
    ∀ fuel, xs.length + 1 ≤ fuel → list_length fuel e h = some xs.length := by
  induction hr with
  | nil =>
    intro fuel hfuel
    obtain ⟨g, rfl⟩ : ∃ g, fuel = g + 1 := ⟨fuel - 1, by omega⟩
    simp [list_length]
  | @cons i x d xs' as' hc _ ih =>
    intro fuel hfuel
    obtain ⟨g, rfl⟩ : ∃ g, fuel = g + 1 := ⟨fuel - 1, by omega⟩
    have := ih g (by simp at hfuel; omega)
    simp [list_length, hc, this]

-- #
-- # Claims
-- #

/-- C2: the claim says `repr_expr` renders an Integer as signed decimal and
never raises `CannotPrint`; the code's `render_expr` has no Integer branch,
so every integer falls through to `make_error("cannot print " + str(exp))`.
This theorem evaluates the code on the failing inputs: for every integer
`n`, on any heap and with any (positive) fuel, printing raises
`CannotPrint` with the decimal rendering only inside the error message. -/
theorem c2_repr_int_is_cannot_print :
    ∀ (n : Int) (h : Heap) (fuel : Nat),
      repr_expr (fuel + 1) (.int n) h = .error ("cannot print " ++ toString n) :=
  fun _ _ _ => rfl

/-- C9 counterexample: the claim says `eval` of an Integer fails with the
`CannotEval` ("cannot eval") error; in fact building that error message
calls `repr_expr` on the integer, which itself raises `CannotPrint` first,
so the surfaced error is "cannot print 7", not a "cannot eval" error. -/
theorem c9_counterexample :
    eval 3 (.int 7) .nil [] = .error "cannot print 7" ∧
      "cannot print 7" ≠ "cannot eval 7" := by
  constructor
  · simp [eval, is_nil, is_symbol, is_gensym, is_op, is_cons, render_atom,
      pyStr]
    decide
  · decide

/-- C9 (amended): for every environment, heap and positive fuel, `eval` of
an Integer does not return the integer: it raises the `CannotPrint` error
produced while rendering the integer for the intended `CannotEval`
message. -/
theorem c9_eval_int_raises_cannot_print :
    ∀ (n : Int) (env : SExp) (h : Heap) (fuel : Nat),
      eval (fuel + 1) (.int n) env h
        = .error ("cannot print " ++ toString n) := by
  intro n env h fuel
  simp [eval, is_nil, is_symbol, is_gensym, is_op, is_cons, render_atom,
    pyStr]

/-- C6: `intern("nil")` is the Nil singleton; every other name yields a
Symbol carrying that name (fresh at each call in Python, unobservable under
`eq` because symbols compare by name), and `eq(intern(n), intern(n))` holds
for every `n ≠ "nil"`. -/
theorem c6_intern_nil_alias_and_name_eq :
    intern "nil" = SExp.nil ∧
      ∀ n : String, n ≠ "nil" →
        intern n = SExp.sym n ∧ eq (intern n) (intern n) = true := by
  refine ⟨by simp [intern], fun n hn => ⟨by simp [intern, hn, make_symbol], ?_⟩⟩
  simp [intern, hn, make_symbol, eq]

/-- The fixup loop of `nreverse` never advances `iter`: whenever the cdr of
the `iter` cell is a pair reference (and `set_car` cannot change it), the
loop runs forever — modelled as exhausting every amount of fuel. -/
theorem nrev_loop2_stuck (j i : Nat) :
    ∀ (fuel : Nat) (x e2 : SExp) (h : Heap), h[j]? = some (x, .ref i) →
      nrev_loop2 fuel (.ref j) e2 h = .error "out of fuel" := by
  intro fuel
  induction fuel with
  | zero => intro x e2 h _; rfl
  | succ fuel ih =>
    intro x e2 h hj
    have hlt : j < h.length := get?_some_lt hj
    simp [nrev_loop2, cdr, hj, is_nil, car, set_car]
    exact ih e2 x (h.set j (e2, .ref i)) (get?_set_self _ hlt)

/-- Phase 1 of `nreverse` on an improper chain of distinct cells: with
fuel at most the chain length it runs out; with more fuel it terminates,
returning the last cell as the new head together with the terminating
atom, and in the final heap that last cell's cdr is the initial `prev`
for a one-cell chain and a pair reference for any longer chain. -/
theorem nrev_loop1_chain {t : SExp} (htc : is_cons t = false) :
    ∀ (as : List Nat) (xs : List SExp) (e prev : SExp) (h : Heap),
      ChainRep h t e xs as → as.Nodup →
      (∀ fuel, fuel ≤ as.length →
          nrev_loop1 fuel e prev h = .error "out of fuel")
      ∧ (∀ fuel, as.length < fuel → as ≠ [] →
          ∃ l y q h1, nrev_loop1 fuel e prev h = .ok (.ref l, t, h1)
            ∧ h1[l]? = some (y, q)
            ∧ (as.length = 1 → q = prev)
            ∧ (2 ≤ as.length → ∃ m, q = .ref m)) := by
  intro as
  induction as with
  | nil =>
    intro xs e prev h hc hnd
    constructor
    · intro fuel hf
      obtain rfl : fuel = 0 := Nat.le_zero.mp hf
      rfl
    · intro fuel _ hne
      exact absurd rfl hne
  | cons i as' ih =>
    intro xs e prev h hc hnd
    cases hc with
    | cons hcell hrest =>
      rename_i x d xs'
      have hilt : i < h.length := get?_some_lt hcell
      have hni : i ∉ as' := (List.nodup_cons.mp hnd).1
      have hnd' : as'.Nodup := (List.nodup_cons.mp hnd).2
      have hstep : ∀ f, nrev_loop1 (f + 1) (.ref i) prev h
          = nrev_loop1 f d (.ref i) (h.set i (x, prev)) := by
        intro f
        simp [nrev_loop1, is_cons, cdr, hcell, set_cdr]
      have hrest' : ChainRep (h.set i (x, prev)) t d xs' as' :=
        ChainRep_frame hrest (fun j hj =>
          get?_set_other _ (fun he => hni (by rw [he]; exact hj)))
      have ihres := ih xs' d (.ref i) (h.set i (x, prev)) hrest' hnd'
      constructor
      · intro fuel hf
        cases fuel with
        | zero => rfl
        | succ f =>
          rw [hstep f]
          exact ihres.1 f (by simp at hf; omega)
      · intro fuel hflt hne
        obtain ⟨f, rfl⟩ : ∃ f, fuel = f + 1 := ⟨fuel - 1, by omega⟩
        rw [hstep f]
        simp only [List.length_cons] at hflt
        cases as' with
        | nil =>
          cases hrest' with
          | nil =>
            obtain ⟨g, rfl⟩ : ∃ g, f = g + 1 := ⟨f - 1, by omega⟩
            refine ⟨i, x, prev, h.set i (x, prev), ?_,
              get?_set_self _ hilt, fun _ => rfl, ?_⟩
            · simp [nrev_loop1, htc]
            · intro h2le
              simp at h2le
        | cons j as'' =>
          obtain ⟨l, y, q, h1, heq, hcl, hq1, hq2⟩ :=
            ihres.2 f (by simp at hflt ⊢; omega) (by simp)
          refine ⟨l, y, q, h1, heq, hcl, ?_, fun _ => ?_⟩
          · intro hlen1
            simp at hlen1
          · cases as'' with
            | nil => exact ⟨i, hq1 (by simp)⟩
            | cons k as''' =>
              exact hq2 (by simp)

/-- `nreverse` on an improper list of at least two distinct cells never
terminates: phase 1 leaves the last cell's cdr pointing at its
predecessor, a pair reference that `set_car` can never change, so the
fixup loop never advances — every amount of fuel is exhausted (by phase 1
itself when the fuel is below the chain length). -/
theorem nreverse_chain_diverges {t : SExp} (htn : is_nil t = false)
    (htc : is_cons t = false) :
    ∀ (h : Heap) (k : Nat) (xs : List SExp) (as : List Nat),
      ChainRep h t (.ref k) xs as → as.Nodup → 2 ≤ as.length →
      ∀ f, nreverse f (.ref k) h = .error "out of fuel" := by
  intro h k xs as hc hnd hlen f
  have hspec := nrev_loop1_chain htc as xs (.ref k) .nil h hc hnd
  by_cases hf : f ≤ as.length
  · have herr := hspec.1 f hf
    simp [nreverse, is_nil, herr, bind, Except.bind]
  · obtain ⟨l, y, q, h1, heq, hcl, _, hq2⟩ :=
      hspec.2 f (by omega)
        (by intro hcontra; rw [hcontra] at hlen; simp at hlen)
    obtain ⟨m, rfl⟩ := hq2 hlen
    have hstuck := nrev_loop2_stuck l m f y t h1 hcl
    simp [nreverse, is_nil, heq, hstuck, bind, Except.bind]
    exact htn

/-- C3 counterexample: on the one-pair improper list `(a . t)` (a single
cell at address 0), `nreverse` terminates but returns the same cell with
car and cdr swapped, the dotted pair `(t . a)` — not a proper list whose
last pair's car is the terminator. -/
theorem c3_counterexample :
    nreverse 9 (.ref 0) [(.sym "a", .sym "t")]
        = .ok (.ref 0, [(.sym "t", .sym "a")]) ∧
      proper_list 9 (.ref 0) [(.sym "t", .sym "a")] = false := by
  constructor
  · rfl
  · rfl

/-- C3 (amended): `nreverse` on an improper list terminating in a non-nil
atom `t`.  With exactly one pair `(a . t)` it terminates and swaps the
cell in place, returning `(t . a)` — a dotted (improper) pair whenever
`a` is not nil, but the proper one-element list `(t)` when `a` is nil (the
one shape on which the original claim happens to hold).  With two or more
distinct pairs the fixup loop never advances its cursor, so `nreverse`
does not terminate: it exhausts every amount of fuel. -/
theorem c3_nreverse_improper (a t : SExp) (i : Nat) (h : Heap) (fuel : Nat)
    (hi : h[i]? = some (a, t)) (htn : is_nil t = false)
    (htc : is_cons t = false) :
    nreverse (fuel + 2) (.ref i) h = .ok (.ref i, h.set i (t, a)) ∧
      ∀ (h2 : Heap) (k : Nat) (xs : List SExp) (as : List Nat),
        ChainRep h2 t (.ref k) xs as → as.Nodup → 2 ≤ as.length →
        ∀ f, nreverse f (.ref k) h2 = .error "out of fuel" := by
  have hlt : i < h.length := get?_some_lt hi
  constructor
  · cases t with
    | nil => exact absurd htn (by simp [is_nil])
    | ref j => exact absurd htc (by simp [is_cons])
    | sym n =>
      simp [nreverse, is_nil, nrev_loop1, is_cons, cdr, hi, set_car,
        set_cdr, car, bind, Except.bind, get?_set_self _ hlt, nrev_loop2,
        List.set_set]
    | gsym n =>
      simp [nreverse, is_nil, nrev_loop1, is_cons, cdr, hi, set_car,
        set_cdr, car, bind, Except.bind, get?_set_self _ hlt, nrev_loop2,
        List.set_set]
    | int n =>
      simp [nreverse, is_nil, nrev_loop1, is_cons, cdr, hi, set_car,
        set_cdr, car, bind, Except.bind, get?_set_self _ hlt, nrev_loop2,
        List.set_set]
    | comment s =>
      simp [nreverse, is_nil, nrev_loop1, is_cons, cdr, hi, set_car,
        set_cdr, car, bind, Except.bind, get?_set_self _ hlt, nrev_loop2,
        List.set_set]
    | fn f =>
      simp [nreverse, is_nil, nrev_loop1, is_cons, cdr, hi, set_car,
        set_cdr, car, bind, Except.bind, get?_set_self _ hlt, nrev_loop2,
        List.set_set]
  · exact fun h2 k xs as hc hnd hl f =>
      nreverse_chain_diverges htn htc h2 k xs as hc hnd hl f

/-- C3 witness: the amended theorem applied to the concrete one-pair heap
`[(a . t)]` (terminating swap) and to the two-pair and three-pair improper
lists `(a b . t)` and `(a b c . t)` (divergence at sample fuels). -/
theorem c3_witness :
    nreverse 2 (.ref 0) [(.sym "a", .sym "t")]
        = .ok (.ref 0, [(.sym "t", .sym "a")]) ∧
      nreverse 17 (.ref 0) [(.sym "a", .ref 1), (.sym "b", .sym "t")]
        = .error "out of fuel" ∧
      nreverse 500 (.ref 0)
          [(.sym "a", .ref 1), (.sym "b", .ref 2), (.sym "c", .sym "t")]
        = .error "out of fuel" := by
  have h := c3_nreverse_improper (.sym "a") (.sym "t") 0
    [(.sym "a", .sym "t")] 0 rfl rfl rfl
  refine ⟨h.1, ?_, ?_⟩
  · exact h.2 [(.sym "a", .ref 1), (.sym "b", .sym "t")] 0
      [.sym "a", .sym "b"] [0, 1] (.cons rfl (.cons rfl .nil))
      (by decide) (by decide) 17
  · exact h.2 [(.sym "a", .ref 1), (.sym "b", .ref 2), (.sym "c", .sym "t")]
      0 [.sym "a", .sym "b", .sym "c"] [0, 1, 2]
      (.cons rfl (.cons rfl (.cons rfl .nil)))
      (by decide) (by decide) 500

/-- C5: the `(if test then [else])` special form.  With the if-form laid
out at cell `c` (test at `c1`, then-branch at `c2`), evaluating the form
first evaluates `test`; a non-nil result continues with the then-branch in
the post-test heap; a nil result consults the (possibly mutated) heap for
an else-arm (`cdddr`) and evaluates it when present, else returns Nil. -/
theorem c5_eval_if (fuel : Nat) (h : Heap) (env : SExp) (c c1 c2 : Nat)
    (tst thn rest : SExp)
    (hc : h[c]? = some (.sym "if", .ref c1))
    (hc1 : h[c1]? = some (tst, .ref c2))
    (hc2 : h[c2]? = some (thn, rest)) :
    (∀ v h', eval fuel tst env h = .ok (v, h') → is_nil v = false →
        eval (fuel + 2) (.ref c) env h = eval fuel thn env h') ∧
    (∀ h' rest', eval fuel tst env h = .ok (.nil, h') →
        cdddr (.ref c) h' = .ok rest' →
        (∀ els, is_nil rest' = false → car rest' h' = .ok els →
            eval (fuel + 2) (.ref c) env h = eval fuel els env h') ∧
        (rest' = .nil → eval (fuel + 2) (.ref c) env h = .ok (.nil, h'))) := by
  have hdisp : eval (fuel + 2) (.ref c) env h
      = eval_if (fuel + 1) (.ref c) env h := by
    simp [eval, is_nil, is_symbol, is_gensym, is_op, hc, is_cons, eq,
      intern, make_symbol]
  have hca : cadr (.ref c) h = .ok tst := by
    simp [cadr, cdr, car, hc, hc1]
  have hcb : caddr (.ref c) h = .ok thn := by
    simp [caddr, cdr, car, hc, hc1, hc2]
  constructor
  · intro v h' ht hv
    rw [hdisp]
    simp only [eval_if, hca, hcb, bind_ok, ht, hv, Bool.not_false,
      if_true]
  · intro h' rest' ht hcd
    constructor
    · intro els hrn hcar
      cases hx1 : cdr (.ref c) h' with
      | error m => simp [cdddr, hx1] at hcd
      | ok x1 =>
        cases hx2 : cdr x1 h' with
        | error m => simp [cdddr, hx1, hx2] at hcd
        | ok x2 =>
          have hx3 : cdr x2 h' = .ok rest' := by
            simpa [cdddr, hx1, hx2] using hcd
          have hc4 : cadddr (.ref c) h' = .ok els := by
            simp only [cadddr, hx1, hx2, hx3, bind_ok, hcar]
          rw [hdisp]
          simp only [eval_if, hca, hcb, bind_ok, ht]
          simp only [is_nil_true, Bool.not_true, Bool.false_eq_true,
            if_false, hcd, bind_ok, hrn, Bool.not_false, if_true, hc4]
    · intro hrnil
      subst hrnil
      rw [hdisp]
      simp only [eval_if, hca, hcb, bind_ok, ht]
      simp only [is_nil_true, Bool.not_true, Bool.false_eq_true, if_false,
        hcd, bind_ok]

/-- C4: when the head of an application is a symbol (so neither a Builtin
nor a Function value), `eval` evaluates the head once and re-evaluates
`(evaluated-head . args)` — a freshly allocated cell carrying the
evaluated head and the *unevaluated* original `args` — in the same
environment (first conjunct); when the head's value is a builtin, the
re-dispatch applies it to the left-to-right evaluated arguments, each
argument evaluated exactly once by the single `eval_list` pass (second
conjunct). -/
theorem c4_eval_cons_fallback (fuel : Nat) (h : Heap) (env : SExp) (c : Nat)
    (s : String) (args v : SExp)
    (hc : h[c]? = some (.sym s, args))
    (hq : s ≠ "quote") (hl : s ≠ "lit") (hi : s ≠ "if")
    (hv : env_get (fuel + 1) env (.sym s) h = .ok v) :
    eval (fuel + 4) (.ref c) env h
      = eval (fuel + 2) (.ref h.length) env (h ++ [(v, args)]) ∧
    (∀ bi brest, v = .ref bi → h[bi]? = some (g_builtin_tag, brest) →
      eval (fuel + 4) (.ref c) env h
        = match eval_list fuel args env (h ++ [(v, args)]) with
          | .error m => .error m
          | .ok (vals, h1) => do
            let f ← builtin_fun v h1
            match f with
            | .fn bf => do
              let elems ← list_elems (fuel + 1) vals h1
              apply_bfn bf elems h1
            | _ => .error "TypeError") := by
  have hd1 : eval (fuel + 4) (.ref c) env h
      = eval_cons (fuel + 3) (.ref c) env h := by
    simp [eval, is_nil, is_symbol, is_gensym, is_op, hc, is_cons, eq,
      intern, make_symbol, hq, hl, hi]
  have hd2 : eval_cons (fuel + 3) (.ref c) env h
      = eval (fuel + 2) (.ref h.length) env (h ++ [(v, args)]) := by
    simp only [eval_cons, car, cdr, hc, bind_ok]
    have hb : is_builtin (.sym s) h = false := rfl
    have hf : is_function (.sym s) h = false := rfl
    rw [hb, hf]
    simp only [Bool.false_eq_true, if_false]
    have he : eval (fuel + 2) (.sym s) env h = .ok (v, h) := by
      simp [eval, is_nil, is_symbol, hv]
    rw [he]
    rfl
  refine ⟨hd1.trans hd2, ?_⟩
  intro bi brest hvr hbi
  subst hvr
  have hblt : bi < h.length := get?_some_lt hbi
  have hnew : (h ++ [(SExp.ref bi, args)])[h.length]?
      = some (SExp.ref bi, args) := by
    simp [List.getElem?_concat_length]
  have hbi2 : (h ++ [(SExp.ref bi, args)])[bi]?
      = some (g_builtin_tag, brest) := by
    rw [get?_append_left hblt]; exact hbi
  rw [hd1.trans hd2]
  have hd3 : eval (fuel + 2) (.ref h.length) env (h ++ [(SExp.ref bi, args)])
      = eval_cons (fuel + 1) (.ref h.length) env
          (h ++ [(SExp.ref bi, args)]) := by
    simp [eval, is_nil, is_symbol, is_gensym, is_op, hnew, is_cons, eq,
      intern, make_symbol]
  rw [hd3]
  simp only [eval_cons, car, cdr, hnew, bind_ok]
  have hib : is_builtin (.ref bi) (h ++ [(SExp.ref bi, args)]) = true := by
    simp [is_builtin, is_op, hbi2, eq, g_builtin_tag]
  rw [hib]
  simp only [if_true, eval_list]

/-- C7: with an environment represented by the frames `fs` (all cells
distinct), `env_get` and `env_set` on a symbol fail with the
`Unbound` error exactly when no frame binds it; when a binding exists,
`env_set` overwrites the binding's cell in place, and `env_get` on the very
same environment then returns the newly set value. -/
theorem c7_env_get_set (h : Heap) (env : SExp)
    (fs : List (List (SExp × SExp))) (A : List Nat) (s : String)
    (val : SExp) (fuel : Nat) (hr : EnvRep h env fs A) (hnd : A.Nodup)
    (hfuel : env_fuel fs ≤ fuel) :
    (env_lookup fs (.sym s) = none →
      env_get fuel env (.sym s) h = .error ("unbound variable " ++ s) ∧
      env_set fuel env (.sym s) val h
        = .error ("unbound variable " ++ s)) ∧
    (∀ x, env_lookup fs (.sym s) = some x →
      env_get fuel env (.sym s) h = .ok x ∧
      ∃ h', env_set fuel env (.sym s) val h = .ok h' ∧
        EnvRep h' env (env_update fs (.sym s) val) A ∧
        env_get fuel env (.sym s) h' = .ok val) := by
  have h1 : 1 ≤ fuel := le_trans (env_fuel_pos fs) hfuel
  obtain ⟨g, rfl⟩ : ∃ g, fuel = g + 1 := ⟨fuel - 1, by omega⟩
  have hspec := @env_find_global_spec h (.sym s) fs env A (g + 1) hr hnd
    hfuel
  constructor
  · intro hn
    have hglob := hspec.1 hn
    constructor
    · simp [env_get, hglob, is_nil, render_expr, render_atom]
    · simp [env_set, hglob, is_nil, render_expr, render_atom]
  · intro x hx
    obtain ⟨j, d, hjA, hj, hglob, hupd⟩ := hspec.2 x hx
    refine ⟨by simp [env_get, hglob, is_nil, car, hj], ?_⟩
    refine ⟨h.set j (val, d), by simp [env_set, hglob, is_nil, set_car, hj],
      hupd val, ?_⟩
    have hr2 : EnvRep (h.set j (val, d)) env (env_update fs (.sym s) val) A :=
      hupd val
    have hfuel2 : env_fuel (env_update fs (.sym s) val) ≤ g + 1 := by
      rw [env_fuel_update]
      exact hfuel
    have hlk : env_lookup (env_update fs (.sym s) val) (.sym s) = some val :=
      env_lookup_update fs (.sym s) val x hx
    obtain ⟨j2, d2, hj2A, hj2, hglob2, _⟩ :=
      (env_find_global_spec (env_update fs (.sym s) val) env A (g + 1)
        hr2 hnd hfuel2).2 val hlk
    simp [env_get, hglob2, is_nil, car, hj2]

/-- The concrete four-cell environment `{x ↦ 1}` used by the C7 witness:
vars cell 0, vals cell 1, frame pair cell 2, environment cell 3. -/
def envH : Heap :=
  [(.sym "x", .nil), (.int 1, .nil), (.ref 0, .ref 1), (.ref 2, .nil)]

theorem envH_rep :
    EnvRep envH (.ref 3) [[(.sym "x", .int 1)]] [3, 2, 0, 1] :=
  @EnvRep.cons envH 3 (.ref 2) .nil [(.sym "x", .int 1)] [] [2, 0, 1] []
    rfl
    (@FrameRep.mk envH 2 (.ref 0) (.ref 1) [(.sym "x", .int 1)] [0] [1]
      rfl
      (@ListRep.cons envH 0 (.sym "x") .nil [] [] rfl .nil)
      (@ListRep.cons envH 1 (.int 1) .nil [] [] rfl .nil))
    .nil

/-- C7 witness: on the concrete environment `{x ↦ 1}`, `y` is unbound for
both `env_get` and `env_set`, while `env_set` of `x` to 2 rewrites the vals
cell in place and `env_get` then reads 2. -/
theorem c7_witness :
    (env_get 4 (.ref 3) (.sym "y") envH = .error "unbound variable y" ∧
      env_set 4 (.ref 3) (.sym "y") (.int 2) envH
        = .error "unbound variable y") ∧
    (env_get 4 (.ref 3) (.sym "x") envH = .ok (.int 1) ∧
      ∃ h', env_set 4 (.ref 3) (.sym "x") (.int 2) envH = .ok h' ∧
        EnvRep h' (.ref 3) [[(.sym "x", .int 2)]] [3, 2, 0, 1] ∧
        env_get 4 (.ref 3) (.sym "x") h' = .ok (.int 2)) := by
  constructor
  · exact (c7_env_get_set envH (.ref 3) [[(.sym "x", .int 1)]] [3, 2, 0, 1]
      "y" (.int 2) 4 envH_rep (by decide) (by decide)).1 rfl
  · have hhit := (c7_env_get_set envH (.ref 3) [[(.sym "x", .int 1)]]
      [3, 2, 0, 1] "x" (.int 2) 4 envH_rep (by decide) (by decide)).2
      (.int 1) rfl
    exact ⟨hhit.1, hhit.2⟩

/-- C10: the environment invariant — under the representation every frame
pair carries a vars list and a vals list that are proper lists of exactly
equal length (first conjunct, the property `env_find_local`'s parallel
walk relies on) — and every environment operation preserves representable,
all-cells-distinct environments: `env_push` (second), `env_def` (third),
`env_del` on a locally present variable (fourth), and `env_dbind` on
well-matched arguments, i.e. a chain of non-cons binders with a non-cons
terminator against at least as many values (fifth). -/
theorem c10_env_ops_preserve_invariant :
    (∀ (h : Heap) (pr : SExp) (f : List (SExp × SExp)) (as : List Nat),
      FrameRep h pr f as → ∃ (p : Nat) (vars vals : SExp),
        pr = .ref p ∧ h[p]? = some (vars, vals) ∧
        list_length (f.length + 1) vars h = some f.length ∧
        list_length (f.length + 1) vals h = some f.length) ∧
    (∀ (h : Heap) (env : SExp) (f : List (SExp × SExp))
      (fs : List (List (SExp × SExp))) (A : List Nat) (var val : SExp),
      EnvRep h env (f :: fs) A → A.Nodup →
      ∃ (h' : Heap) (A' : List Nat), env_push env var val h = .ok h' ∧
        EnvRep h' env (((var, val) :: f) :: fs) A' ∧ A'.Nodup) ∧
    (∀ (h : Heap) (env : SExp) (f : List (SExp × SExp))
      (fs : List (List (SExp × SExp))) (A : List Nat) (fuel : Nat)
      (var val : SExp),
      EnvRep h env (f :: fs) A → A.Nodup → f.length + 1 ≤ fuel →
      ∃ (h' : Heap) (A' : List Nat), env_def fuel env var val h = .ok h' ∧
        EnvRep h' env (def_frame f var val :: fs) A' ∧ A'.Nodup) ∧
    (∀ (h : Heap) (env : SExp) (f : List (SExp × SExp))
      (fs : List (List (SExp × SExp))) (A : List Nat) (fuel : Nat)
      (var x : SExp),
      EnvRep h env (f :: fs) A → A.Nodup → f.length + 2 ≤ fuel →
      frame_find f var = some x →
      ∃ (h' : Heap) (A' : List Nat), env_del fuel env var h = .ok h' ∧
        EnvRep h' env (frame_remove f var :: fs) A' ∧ A'.Nodup) ∧
    (∀ (h : Heap) (env t vars vals : SExp) (vs ws : List SExp)
      (asv bsv : List Nat) (f : List (SExp × SExp))
      (fs : List (List (SExp × SExp))) (A : List Nat) (fuel : Nat),
      is_cons t = false → ChainRep h t vars vs asv →
      ListRep h vals ws bsv → vs.length ≤ ws.length →
      (∀ v ∈ vs, is_cons v = false) → EnvRep h env (f :: fs) A →
      A.Nodup → (∀ i ∈ asv, i ∉ A) → (∀ i ∈ bsv, i ∉ A) →
      f.length + 3 * vs.length + 5 ≤ fuel →
      ∃ (h' : Heap) (f' : List (SExp × SExp)) (A' : List Nat),
        env_dbind fuel env vars vals h = .ok h' ∧
        EnvRep h' env (f' :: fs) A' ∧ A'.Nodup) := by
  refine ⟨?_, ?_, ?_, ?_, ?_⟩
  · intro h pr f as hf
    cases hf with
    | @mk p vars vals _ asv bsv hp hvars hvals =>
    refine ⟨p, vars, vals, rfl, hp, ?_, ?_⟩
    · have := ListRep_list_length hvars (f.length + 1) (by simp)
      simpa using this
    · have := ListRep_list_length hvals (f.length + 1) (by simp)
      simpa using this
  · intro h env f fs A var val hr hnd
    obtain ⟨h', A', hpush, hrep, hnd', _, _, _⟩ := env_push_spec hr hnd var val
    exact ⟨h', A', hpush, hrep, hnd'⟩
  · intro h env f fs A fuel var val hr hnd hfuel
    obtain ⟨h', A', hdef, hrep, hnd', _, _, _⟩ :=
      env_def_spec hr hnd hfuel var val
    exact ⟨h', A', hdef, hrep, hnd'⟩
  · intro h env f fs A fuel var x hr hnd hfuel hx
    obtain ⟨h', A', hdel, hrep, hnd'⟩ := env_del_spec hr hnd hfuel var x hx
    exact ⟨h', A', hdel, hrep, hnd'⟩
  · intro h env t vars vals vs ws asv bsv f fs A fuel htc hcv hlw hlen
      hflat hr hnd hdas hdbs hfuel
    obtain ⟨g, rfl⟩ : ∃ g, fuel = g + 1 := ⟨fuel - 1, by omega⟩
    by_cases hvn : is_nil vars
    · refine ⟨h, f, A, ?_, hr, hnd⟩
      simp [env_dbind, hvn]
    · obtain ⟨h', f', A', hloop, hrep', hnd', _, _, _, _⟩ :=
        env_dbind_loop_spec htc vs h vars vals ws asv bsv f fs A g hcv hlw
          hlen hflat hr hnd hdas hdbs (by omega)
      refine ⟨h', f', A', ?_, hrep', hnd'⟩
      simp [env_dbind, hvn]
      exact hloop

/-- The C7 witness heap extended with a two-binder parameter list
`(a b)` (cells 4–5) and a two-value list `(1 2)` (cells 6–7). -/
def envH2 : Heap :=
  envH ++ [(.sym "a", .ref 5), (.sym "b", .nil), (.int 1, .ref 7),
    (.int 2, .nil)]

/-- C10 witness: each preservation statement applied on the concrete
environment `{x ↦ 1}` — pushing `y`, defining `z`, deleting `x`, and
destructure-binding `(a b)` against `(1 2)`. -/
theorem c10_witness :
    (∃ (p : Nat) (vars vals : SExp), (SExp.ref 2 : SExp) = .ref p ∧
      envH[p]? = some (vars, vals) ∧
      list_length 2 vars envH = some 1 ∧
      list_length 2 vals envH = some 1) ∧
    (∃ (h' : Heap) (A' : List Nat),
      env_push (.ref 3) (.sym "y") (.int 7) envH = .ok h' ∧
      EnvRep h' (.ref 3)
        [[((.sym "y" : SExp), (.int 7 : SExp)), (.sym "x", .int 1)]] A' ∧
      A'.Nodup) ∧
    (∃ (h' : Heap) (A' : List Nat),
      env_def 3 (.ref 3) (.sym "z") (.int 9) envH = .ok h' ∧
      EnvRep h' (.ref 3)
        [def_frame [(.sym "x", .int 1)] (.sym "z") (.int 9)] A' ∧
      A'.Nodup) ∧
    (∃ (h' : Heap) (A' : List Nat),
      env_del 4 (.ref 3) (.sym "x") envH = .ok h' ∧
      EnvRep h' (.ref 3) [frame_remove [(.sym "x", .int 1)] (.sym "x")]
        A' ∧ A'.Nodup) ∧
    (∃ (h' : Heap) (f' : List (SExp × SExp)) (A' : List Nat),
      env_dbind 12 (.ref 3) (.ref 4) (.ref 6) envH2 = .ok h' ∧
      EnvRep h' (.ref 3) [f'] A' ∧ A'.Nodup) := by
  obtain ⟨hlen, hpush, hdef, hdel, hdbind⟩ := c10_env_ops_preserve_invariant
  refine ⟨?_, ?_, ?_, ?_, ?_⟩
  · exact hlen envH (.ref 2) [(.sym "x", .int 1)] [2, 0, 1]
      (@FrameRep.mk envH 2 (.ref 0) (.ref 1) [(.sym "x", .int 1)] [0] [1]
        rfl (@ListRep.cons envH 0 (.sym "x") .nil [] [] rfl .nil)
        (@ListRep.cons envH 1 (.int 1) .nil [] [] rfl .nil))
  · exact hpush envH (.ref 3) [(.sym "x", .int 1)] [] [3, 2, 0, 1]
      (.sym "y") (.int 7) envH_rep (by decide)
  · exact hdef envH (.ref 3) [(.sym "x", .int 1)] [] [3, 2, 0, 1] 3
      (.sym "z") (.int 9) envH_rep (by decide) (by decide)
  · exact hdel envH (.ref 3) [(.sym "x", .int 1)] [] [3, 2, 0, 1] 4
      (.sym "x") (.int 1) envH_rep (by decide) (by decide) (by decide)
  · exact hdbind envH2 (.ref 3) .nil (.ref 4) (.ref 6)
      [.sym "a", .sym "b"] [.int 1, .int 2] [4, 5] [6, 7]
      [(.sym "x", .int 1)] [] [3, 2, 0, 1] 12 (by decide)
      (@ChainRep.cons envH2 .nil 4 (.sym "a") (.ref 5) [.sym "b"] [5] rfl
        (@ChainRep.cons envH2 .nil 5 (.sym "b") .nil [] [] rfl .nil))
      (@ListRep.cons envH2 6 (.int 1) (.ref 7) [.int 2] [7] rfl
        (@ListRep.cons envH2 7 (.int 2) .nil [] [] rfl .nil))
      (by decide) (by decide) (EnvRep_append envH_rep) (by decide)
      (by decide) (by decide) (by decide)

/-- C1 counterexample.  The claim fails three ways on concrete inputs:
(1) `equal` is `eq`, which on pairs is Python object identity — reading
back the printed form of the one-element list `(nil)` (cell 0) allocates a
fresh cell (cell 1), and `equal` of the two is false; (2) an expression
containing an Integer cannot even be printed (`repr_expr 5` raises
`CannotPrint`); (3) a symbol whose name is not a single symbol-lexeme, such
as `"foo bar"`, prints as `foo bar` but reads back as the symbol `foo`. -/
theorem c1_counterexample :
    (repr_expr 3 (.ref 0) [(.nil, .nil)] = .ok "(nil)" ∧
      read_one_from_string 9 readerDefaults "(nil)" [(.nil, .nil)]
        = .ok (.ref 1, [], [(.nil, .nil), (.nil, .nil)]) ∧
      equal (.ref 1) (.ref 0) = false) ∧
    (repr_expr 3 (.int 5) [] = .error "cannot print 5") ∧
    (repr_expr 3 (.sym "foo bar") [] = .ok "foo bar" ∧
      read_one_from_string 9 readerDefaults "foo bar" []
        = .ok (.sym "foo", " bar".data, []) ∧
      equal (.sym "foo") (.sym "foo bar") = false) := by
  exact ⟨⟨rfl, rfl, rfl⟩, rfl, rfl, rfl, rfl⟩

/-- The core environment built on the empty heap: the environment value
(cell 1) and the 20-cell heap. -/
def coreW : SExp × Heap :=
  match make_core_env 20 [] with
  | .ok p => p
  | .error _ => (.nil, [])

/-- The heap after reading `(eq 'a 'a)` on top of the core heap: the form
occupies cells 20–26, with the application cell at 20. -/
def c4H : Heap :=
  match read_one_from_string 30 readerDefaults "(eq 'a 'a)" coreW.2 with
  | .ok (_, _, hh) => hh
  | .error _ => []

/-- C4 witness: the fallback theorem applied to `(eq 'a 'a)` under the core
environment — `eq` is a symbol bound to the builtin at cell 5, the
application re-dispatches on the freshly allocated `(builtin . args)` cell,
and the final value is `t`. -/
theorem c4_witness :
    c4H[20]? = some (.sym "eq", .ref 23) ∧
    env_get 10 coreW.1 (.sym "eq") c4H = .ok (.ref 5) ∧
    c4H[5]? = some (g_builtin_tag, .ref 4) ∧
    (eval 13 (.ref 20) coreW.1 c4H
        = eval 11 (.ref c4H.length) coreW.1 (c4H ++ [(.ref 5, .ref 23)]) ∧
      eval 13 (.ref 20) coreW.1 c4H
        = match eval_list 9 (.ref 23) coreW.1 (c4H ++ [(.ref 5, .ref 23)]) with
          | .error m => .error m
          | .ok (vals, h1) => do
            let f ← builtin_fun (.ref 5) h1
            match f with
            | .fn bf => do
              let elems ← list_elems 10 vals h1
              apply_bfn bf elems h1
            | _ => .error "TypeError") ∧
    res_val (eval 13 (.ref 20) coreW.1 c4H) = .ok (.sym "t") := by
  have hthm := c4_eval_cons_fallback 9 c4H coreW.1 20 "eq" (.ref 23)
    (.ref 5) rfl (by decide) (by decide) (by decide) rfl
  exact ⟨rfl, rfl, rfl, ⟨hthm.1, hthm.2 5 (.ref 4) rfl rfl⟩, rfl⟩

/-- A concrete heap holding `(if 't 'a 'b)` at cell 8, `(if 'nil 'a 'b)`
at cell 12 and `(if 'nil 'a)` at cell 16. -/
def ifHeap : Heap :=
  [(.sym "t", .nil), (.sym "quote", .ref 0),
   (.sym "a", .nil), (.sym "quote", .ref 2),
   (.sym "b", .nil), (.sym "quote", .ref 4),
   (.nil, .nil), (.sym "quote", .ref 6),
   (.sym "if", .ref 9), (.ref 1, .ref 10), (.ref 3, .ref 11), (.ref 5, .nil),
   (.sym "if", .ref 13), (.ref 7, .ref 14), (.ref 3, .ref 15), (.ref 5, .nil),
   (.sym "if", .ref 17), (.ref 7, .ref 18), (.ref 3, .nil)]

/-- C5 witness: the three arms of the theorem applied at the concrete
if-forms of `ifHeap`, together with the evaluated answers `a`, `b`, nil. -/
theorem c5_witness :
    (eval 7 (.ref 8) .nil ifHeap = eval 5 (.ref 3) .nil ifHeap ∧
      eval 7 (.ref 12) .nil ifHeap = eval 5 (.ref 5) .nil ifHeap ∧
      eval 7 (.ref 16) .nil ifHeap = .ok (.nil, ifHeap)) ∧
    res_val (eval 7 (.ref 8) .nil ifHeap) = .ok (.sym "a") ∧
    res_val (eval 7 (.ref 12) .nil ifHeap) = .ok (.sym "b") ∧
    res_val (eval 7 (.ref 16) .nil ifHeap) = .ok .nil := by
  refine ⟨⟨?_, ?_, ?_⟩, rfl, rfl, rfl⟩
  · exact (c5_eval_if 5 ifHeap .nil 8 9 10 (.ref 1) (.ref 3) (.ref 11)
      rfl rfl rfl).1 (.sym "t") ifHeap rfl rfl
  · exact ((c5_eval_if 5 ifHeap .nil 12 13 14 (.ref 7) (.ref 3) (.ref 15)
      rfl rfl rfl).2 ifHeap (.ref 15) rfl rfl).1 (.ref 5) rfl rfl
  · exact ((c5_eval_if 5 ifHeap .nil 16 17 18 (.ref 7) (.ref 3) .nil
      rfl rfl rfl).2 ifHeap .nil rfl rfl).2 rfl

/-- C6 witness at the concrete name "foo". -/
theorem c6_witness :
    intern "nil" = SExp.nil ∧ intern "foo" = SExp.sym "foo" ∧
      eq (intern "foo") (intern "foo") = true := by
  refine ⟨c6_intern_nil_alias_and_name_eq.1, ?_, ?_⟩
  · exact (c6_intern_nil_alias_and_name_eq.2 "foo" (by decide)).1
  · exact (c6_intern_nil_alias_and_name_eq.2 "foo" (by decide)).2



-- #
-- # C8: reader lemmas
-- #

/-- The character class of the C8 amendment: whitespace, or a symbol
constituent other than `.` (in particular not `(`, `)`, `;`, `'`, `"`). -/
def c8_good (c : Char) : Bool :=
  (is_ws c || is_symbol_start (some c)) && !(c = '.')

theorem c8_good_cases {c : Char} (hc : c8_good c = true) :
    c ≠ '.' ∧ (is_ws c = true ∨ is_symbol_start (some c) = true) := by
  simp [c8_good] at hc
  tauto

theorem symbol_start_facts {c : Char} (hc : is_symbol_start (some c) = true) :
    is_ws c = false ∧ c ≠ dqchar ∧ c ≠ '(' ∧ c ≠ ')' ∧ c ≠ ';' ∧ c ≠ qchar := by
  simp [is_symbol_start] at hc
  tauto

theorem dropWhile_head_false {p : Char → Bool} :
    ∀ {l : List Char} {c : Char} {cs : List Char},
      List.dropWhile p l = c :: cs → p c = false := by
  intro l
  induction l with
  | nil => intro c cs hh; simp [List.dropWhile] at hh
  | cons a l ih =>
    intro c cs hh
    rw [List.dropWhile_cons] at hh
    by_cases hp : p a = true
    · exact ih (by rw [if_pos hp] at hh; exact hh)
    · rw [if_neg hp] at hh
      injection hh with h1 _
      rw [← h1]
      exact Bool.not_eq_true _ ▸ hp

theorem mem_of_mem_dropWhile {p : Char → Bool} {l : List Char} {c : Char}
    (hc : c ∈ List.dropWhile p l) : c ∈ l :=
  (List.dropWhile_sublist p).subset hc

/-- On streams of `c8_good` characters `skip_junk` is exactly the
whitespace-dropping loop: the comment branch is never taken. -/
theorem skip_junk_good (opts : ReaderOpts) :
    ∀ cs : List Char, (∀ c ∈ cs, c8_good c = true) →
      skip_junk opts cs = List.dropWhile is_ws cs := by
  intro cs
  induction cs with
  | nil => intro _; rfl
  | cons c cs ih =>
    intro hgood
    have hgc := c8_good_cases (hgood c (List.mem_cons_self c cs))
    by_cases hws : is_ws c = true
    · rw [skip_junk, if_pos hws, List.dropWhile_cons, if_pos hws]
      exact ih (fun d hd => hgood d (List.mem_cons_of_mem c hd))
    · have hsym : is_symbol_start (some c) = true := by
        rcases hgc.2 with hw | hs
        · exact absurd hw hws
        · exact hs
      have hsc : c ≠ ';' := (symbol_start_facts hsym).2.2.2.2.1
      rw [skip_junk, if_neg hws, List.dropWhile_cons,
        if_neg hws, if_neg]
      simp [is_comment_start, hsc]

theorem take_lexeme_append : ∀ cs : List Char,
    (take_lexeme cs).1 ++ (take_lexeme cs).2 = cs := by
  intro cs
  induction cs with
  | nil => rfl
  | cons c cs ih =>
    by_cases hc : is_symbol_part (some c) = true
    · simp [take_lexeme, hc, ih]
    · simp [take_lexeme, hc]

theorem take_lexeme_cons {c : Char} {cs : List Char}
    (hc : is_symbol_part (some c) = true) :
    take_lexeme (c :: cs) = (c :: (take_lexeme cs).1, (take_lexeme cs).2) := by
  simp [take_lexeme, hc]

/-- The atom produced from a lexeme that contains no `.` is never `eq` to
the dotted-pair marker symbol. -/
theorem atom_not_dot {lexeme : List Char} (hnd : Char.ofNat 46 ∉ lexeme) :
    eq (match int_lexeme lexeme with
        | some n => SExp.int n
        | none => intern (String.mk lexeme)) (intern ".") = false := by
  have hdot : intern "." = SExp.sym "." := by decide
  cases hil : int_lexeme lexeme with
  | some n => rw [hdot]; rfl
  | none =>
    rw [hdot]
    unfold intern make_symbol
    by_cases hn : String.mk lexeme = "nil"
    · rw [if_pos hn]; rfl
    · rw [if_neg hn]
      simp only [eq, decide_eq_false_iff_not]
      intro hcontra
      apply hnd
      have hdata : lexeme = ['.'] := by
        have h2 := congrArg String.data hcontra
        simpa using h2
      rw [hdata]
      exact List.mem_singleton_self _

/-- `parse_expr` on a stream headed by a symbol-start character takes the
atom branch: it consumes the maximal lexeme and allocates nothing. -/
theorem parse_expr_atom_step (f : Nat) (opts : ReaderOpts) (c : Char)
    (cs : List Char) (h : Heap) (hsym : is_symbol_start (some c) = true) :
    parse_expr (f + 1) opts (c :: cs) h =
      .ok ((match int_lexeme (take_lexeme (c :: cs)).1 with
            | some n => SExp.int n
            | none => intern (String.mk (take_lexeme (c :: cs)).1)),
           (take_lexeme (c :: cs)).2, h) := by
  obtain ⟨hws, hdq, hlp, hrp, hsc, hq⟩ := symbol_start_facts hsym
  have hsj : skip_junk opts (c :: cs) = c :: cs := by
    rw [skip_junk, if_neg (by simp [hws]), if_neg]
    simp [is_comment_start, hsc]
  simp only [parse_expr, hsj, peekc]
  rw [if_neg (by simp [hsc]), if_neg (by simp [hlp]), if_neg (by simp [hq]),
    if_pos hsym]
  cases int_lexeme (take_lexeme (c :: cs)).1 <;> rfl


/-- End-of-stream behaviour of the `parse_list` loop: when every remaining
character is whitespace or a non-dot symbol constituent, the stream can only
run out, and the loop fails with the UnexpectedEof message, for any fuel
exceeding the number of remaining characters, provided the current tail
cell is nil or live in the heap. -/
theorem parse_list_loop_eof :
    ∀ (n : Nat) (cs : List Char), cs.length ≤ n →
    ∀ (fuel : Nat) (opts : ReaderOpts) (hd tl : SExp) (h : Heap),
      cs.length + 1 ≤ fuel →
      (tl = SExp.nil ∨ ∃ i, tl = SExp.ref i ∧ i < h.length) →
      (∀ c ∈ cs, c8_good c = true) →
      parse_list_loop fuel opts hd tl cs h
        = .error "unexpected end of stream while parsing list" := by
  intro n
  induction n with
  | zero =>
    intro cs hlen fuel opts hd tl h hfuel htl hgood
    have hcs : cs = [] := List.length_eq_zero.mp (Nat.le_zero.mp hlen)
    obtain ⟨f, rfl⟩ : ∃ f, fuel = f + 1 := ⟨fuel - 1, by omega⟩
    subst hcs
    rfl
  | succ n ih =>
    intro cs hlen fuel opts hd tl h hfuel htl hgood
    obtain ⟨f, rfl⟩ : ∃ f, fuel = f + 1 := ⟨fuel - 1, by omega⟩
    have hsj : skip_junk opts cs = List.dropWhile is_ws cs :=
      skip_junk_good opts cs hgood
    cases hdrop : List.dropWhile is_ws cs with
    | nil =>
      simp only [parse_list_loop, hsj, hdrop]
    | cons c cs2 =>
      have hdlen : (List.dropWhile is_ws cs).length ≤ cs.length :=
        List.Sublist.length_le (List.dropWhile_sublist is_ws)
      rw [hdrop] at hdlen
      simp only [List.length_cons] at hdlen
      have hcmem : c ∈ cs := by
        have hmem : c ∈ List.dropWhile is_ws cs := by
          rw [hdrop]; exact List.mem_cons_self c cs2
        exact mem_of_mem_dropWhile hmem
      have hcg := c8_good_cases (hgood c hcmem)
      have hwsf : is_ws c = false := dropWhile_head_false hdrop
      have hsym : is_symbol_start (some c) = true := by
        rcases hcg.2 with hw | hs
        · rw [hw] at hwsf; cases hwsf
        · exact hs
      obtain ⟨_, _, hlp, hrp, hsc, hq⟩ := symbol_start_facts hsym
      -- lexeme facts
      have hlexcons : take_lexeme (c :: cs2)
          = (c :: (take_lexeme cs2).1, (take_lexeme cs2).2) :=
        take_lexeme_cons hsym
      have happ2 := take_lexeme_append cs2
      have hx : (take_lexeme (c :: cs2)).2 = (take_lexeme cs2).2 := by
        rw [hlexcons]
      have hrestlen : (take_lexeme (c :: cs2)).2.length ≤ cs2.length := by
        rw [hx]
        have hl2 := congrArg List.length happ2
        simp at hl2
        omega
      have hmemcs2 : ∀ d ∈ cs2, d ∈ cs := by
        intro d hd
        apply mem_of_mem_dropWhile (p := is_ws)
        rw [hdrop]
        exact List.mem_cons_of_mem c hd
      have hmemlex : ∀ d ∈ (take_lexeme (c :: cs2)).1, d ∈ cs := by
        intro d hd
        rw [hlexcons] at hd
        rcases List.mem_cons.mp hd with hdc | hdm
        · rw [hdc]; exact hcmem
        · apply hmemcs2
          rw [← happ2]
          exact List.mem_append_left _ hdm
      have hmemrest : ∀ d ∈ (take_lexeme (c :: cs2)).2, d ∈ cs := by
        intro d hd
        rw [hx] at hd
        apply hmemcs2
        rw [← happ2]
        exact List.mem_append_right _ hd
      have hnotdot : Char.ofNat 46 ∉ (take_lexeme (c :: cs2)).1 := by
        intro hm
        exact (c8_good_cases (hgood _ (hmemlex _ hm))).1 rfl
      -- unfold one loop step
      simp only [parse_list_loop, hsj, hdrop]
      split
      · rfl
      · rename_i cs3 rest heq
        injection heq with h1 _
        exact absurd h1 hrp
      · obtain ⟨f2, rfl⟩ : ∃ f2, f = f2 + 1 := ⟨f - 1, by omega⟩
        rw [parse_expr_atom_step f2 opts c cs2 h hsym]
        simp only [atom_not_dot hnotdot, Bool.false_eq_true, if_false, cons]
        rcases htl with rfl | ⟨i, rfl, hi⟩
        · simp only [is_nil, reduceIte]
          exact ih (take_lexeme (c :: cs2)).2 (by omega) (f2 + 1) opts _ _ _
            (by omega)
            (Or.inr ⟨h.length, rfl, by simp⟩)
            (fun d hd => hgood d (hmemrest d hd))
        · simp only [is_nil, Bool.false_eq_true, reduceIte, set_cdr,
            get?_append_left hi, List.getElem?_eq_getElem hi]
          exact ih (take_lexeme (c :: cs2)).2 (by omega) (f2 + 1) opts _ _ _
            (by omega)
            (Or.inr ⟨h.length, rfl, by simp [List.length_set]⟩)
            (fun d hd => hgood d (hmemrest d hd))


/-- C8 counterexample: the input "(a . b" ends while the list opened by
`(` is still unclosed, yet the reader fails with the MissingCloseParen
message of the dotted-tail branch, not with UnexpectedEof. -/
theorem c8_counterexample :
    read_one_from_string 20 readerDefaults "(a . b" []
      = .error "missing closing ')'"
    ∧ read_one_from_string 20 readerDefaults "(a . b" []
      ≠ .error "unexpected end of stream while parsing list" := by
  refine ⟨rfl, ?_⟩
  rw [show read_one_from_string 20 readerDefaults "(a . b" []
    = Except.error "missing closing ')'" from rfl]
  intro hcontra
  injection hcontra with hm
  exact absurd hm (by decide)

/-- C8 (amended): if the stream ends while a list opened by `(` is still
unclosed and no dotted-tail `.` has been consumed — here, the characters
after the `(` are all whitespace or symbol constituents other than `.` —
then the reader fails with UnexpectedEof ("unexpected end of stream while
parsing list"), for any sufficient fuel, options and starting heap.  (If
the stream instead ends right after a parsed dotted tail, the failure is
MissingCloseParen: see the counterexample.) -/
theorem c8_unclosed_list_eof (cs : List Char) (opts : ReaderOpts)
    (fuel : Nat) (h : Heap) (hfuel : cs.length + 2 ≤ fuel)
    (hgood : ∀ c ∈ cs, c8_good c = true) :
    read_one_from_string fuel opts (String.mk ('(' :: cs)) h
      = .error "unexpected end of stream while parsing list" := by
  obtain ⟨f, rfl⟩ : ∃ f, fuel = f + 1 := ⟨fuel - 1, by omega⟩
  show parse_expr (f + 1) opts ('(' :: cs) h = _
  have hsj : skip_junk opts ('(' :: cs) = '(' :: cs := by
    rw [skip_junk, if_neg (by decide), if_neg]
    simp [is_comment_start]
  simp only [parse_expr, hsj, peekc]
  rw [if_neg (by simp), if_pos trivial]
  exact parse_list_loop_eof cs.length cs le_rfl f opts .nil .nil h
    (by omega) (Or.inl rfl) hgood

/-- C8 witness: the amended theorem applied to the input "(foo". -/
theorem c8_witness :
    read_one_from_string 10 readerDefaults (String.mk ('(' :: "foo".data)) []
      = .error "unexpected end of stream while parsing list" :=
  c8_unclosed_list_eof "foo".data readerDefaults 10 [] (by decide) (by decide)


-- #
-- # C1: round-trip of printing and reading
-- #

/-- Abstract binary trees over nil and named symbols: the shapes of the
printable-and-readable expressions of C1 (integers are excluded — the
printer cannot render them, see C2). -/
inductive Tree where
  | tnil : Tree
  | tsym : String → Tree
  | tcons : Tree → Tree → Tree
deriving DecidableEq, Repr

/-- Node-count measure: a fuel bound for both printing and reading. -/
def tsize : Tree → Nat
  | .tnil => 1
  | .tsym _ => 1
  | .tcons a d => tsize a + tsize d + 1

mutual

/-- The text the printer emits for a tree (built with the same string
appends as `render_expr`). -/
def printT : Tree → String
  | .tnil => "nil"
  | .tsym s => s
  | .tcons a d => "(" ++ printT a ++ printTailT d ++ ")"

/-- The text `render_tail` emits for the cdr position. -/
def printTailT : Tree → String
  | .tnil => ""
  | .tsym s => " . " ++ s
  | .tcons a d => " " ++ printT a ++ printTailT d

end

theorem tsize_pos (t : Tree) : 1 ≤ tsize t := by
  cases t <;> simp [tsize]

/-- A symbol name that survives the round trip: nonempty, made of symbol
constituents, not the nil alias, not the dotted-pair marker, and not an
integer lexeme. -/
def goodSym (s : String) : Bool :=
  !s.data.isEmpty && s.data.all (fun c => is_symbol_start (some c))
    && !(s = "nil") && !(s = ".") && (int_lexeme s.data).isNone

def goodTree : Tree → Bool
  | .tnil => true
  | .tsym s => goodSym s
  | .tcons a d => goodTree a && goodTree d

/-- `DecTree h lo hi e t`: the expression `e` decodes to the tree `t` in
heap `h`, with every cons cell of the spine lying in the address band
`[lo, hi)`. -/
inductive DecTree (h : Heap) (lo hi : Nat) : SExp → Tree → Prop
  | dnil : DecTree h lo hi .nil .tnil
  | dsym (s : String) : DecTree h lo hi (.sym s) (.tsym s)
  | dcons (i : Nat) (a d : SExp) (ta td : Tree) :
      lo ≤ i → i < hi → h[i]? = some (a, d) →
      DecTree h lo hi a ta → DecTree h lo hi d td →
      DecTree h lo hi (.ref i) (.tcons ta td)

theorem DecTree_mono {h : Heap} {lo hi lo' hi' : Nat} {e : SExp} {t : Tree}
    (hd : DecTree h lo hi e t) (hlo : lo' ≤ lo) (hhi : hi ≤ hi') :
    DecTree h lo' hi' e t := by
  induction hd with
  | dnil => exact .dnil
  | dsym s => exact .dsym s
  | dcons i a d ta td hlo2 hhi2 hcell ha hd2 iha ihd =>
    exact .dcons i a d ta td (le_trans hlo hlo2) (lt_of_lt_of_le hhi2 hhi)
      hcell iha ihd

theorem DecTree_frame {h h2 : Heap} {lo hi : Nat} {e : SExp} {t : Tree}
    (hd : DecTree h lo hi e t)
    (hagree : ∀ j, lo ≤ j → j < hi → h2[j]? = h[j]?) :
    DecTree h2 lo hi e t := by
  induction hd with
  | dnil => exact .dnil
  | dsym s => exact .dsym s
  | dcons i a d ta td hlo2 hhi2 hcell ha hd2 iha ihd =>
    exact .dcons i a d ta td hlo2 hhi2 ((hagree i hlo2 hhi2).trans hcell)
      iha ihd

/-- Printing a decoded tree: `render_expr` emits `printT` and
`render_tail` emits `printTailT`, for any fuel above the node count. -/
theorem render_of_DecTree {h : Heap} {lo hi : Nat} {e : SExp} {t : Tree}
    (hd : DecTree h lo hi e t) :
    (∀ fuel, tsize t + 1 ≤ fuel → render_expr fuel e h = .ok (printT t))
    ∧ (∀ fuel, tsize t + 1 ≤ fuel →
        render_tail fuel e h = .ok (printTailT t)) := by
  induction hd with
  | dnil =>
    constructor
    · intro fuel hf
      obtain ⟨f, rfl⟩ : ∃ f, fuel = f + 1 := ⟨fuel - 1, by omega⟩
      rfl
    · intro fuel hf
      obtain ⟨f, rfl⟩ : ∃ f, fuel = f + 1 := ⟨fuel - 1, by omega⟩
      rfl
  | dsym s =>
    constructor
    · intro fuel hf
      obtain ⟨f, rfl⟩ : ∃ f, fuel = f + 1 := ⟨fuel - 1, by omega⟩
      rfl
    · intro fuel hf
      simp only [tsize] at hf
      obtain ⟨f, rfl⟩ : ∃ f, fuel = f + 2 := ⟨fuel - 2, by omega⟩
      rfl
  | dcons i a d ta td hlo2 hhi2 hcell ha hd2 iha ihd =>
    have hcar : car (.ref i) h = .ok a := by
      simp [car, hcell]
    have hcdr : cdr (.ref i) h = .ok d := by
      simp [cdr, hcell]
    have hpa := tsize_pos ta
    have hpd := tsize_pos td
    constructor
    · intro fuel hf
      simp only [tsize] at hf
      obtain ⟨f, rfl⟩ : ∃ f, fuel = f + 2 := ⟨fuel - 2, by omega⟩
      show render_list (f + 1) (.ref i) h = _
      rw [render_list, hcar]
      simp only [bind_ok]
      rw [iha.1 f (by omega), hcdr]
      simp only [bind_ok]
      rw [ihd.2 f (by omega)]
      rfl
    · intro fuel hf
      simp only [tsize] at hf
      obtain ⟨f, rfl⟩ : ∃ f, fuel = f + 1 := ⟨fuel - 1, by omega⟩
      rw [render_tail, hcar]
      simp only [bind_ok]
      rw [iha.1 f (by omega), hcdr]
      simp only [bind_ok]
      rw [ihd.2 f (by omega)]
      rfl


theorem sdata_append (a b : String) : (a ++ b).data = a.data ++ b.data := rfl

theorem skip_junk_head (opts : ReaderOpts) {c : Char} (cs : List Char)
    (hws : is_ws c = false) (hsc : c ≠ ';') :
    skip_junk opts (c :: cs) = c :: cs := by
  rw [skip_junk, if_neg (by simp [hws]), if_neg]
  simp [is_comment_start, hsc]

theorem parse_expr_ws (f : Nat) (opts : ReaderOpts) (c : Char)
    (cs : List Char) (h : Heap) (hws : is_ws c = true) :
    parse_expr (f + 1) opts (c :: cs) h = parse_expr (f + 1) opts cs h := by
  have hs : skip_junk opts (c :: cs) = skip_junk opts cs := by
    rw [skip_junk, if_pos hws]
  simp only [parse_expr, hs]

theorem parse_list_loop_ws (f : Nat) (opts : ReaderOpts) (hd tl : SExp)
    (c : Char) (cs : List Char) (h : Heap) (hws : is_ws c = true) :
    parse_list_loop (f + 1) opts hd tl (c :: cs) h
      = parse_list_loop (f + 1) opts hd tl cs h := by
  have hs : skip_junk opts (c :: cs) = skip_junk opts cs := by
    rw [skip_junk, if_pos hws]
  simp only [parse_list_loop, hs]

theorem take_lexeme_all :
    ∀ (l rest : List Char), (∀ c ∈ l, is_symbol_part (some c) = true) →
      is_symbol_part (peekc rest) = false →
      take_lexeme (l ++ rest) = (l, rest) := by
  intro l
  induction l with
  | nil =>
    intro rest _ hrest
    cases rest with
    | nil => rfl
    | cons c cs =>
      rw [List.nil_append, take_lexeme, if_neg]
      simp only [peekc] at hrest
      simp [hrest]
  | cons c l ih =>
    intro rest hall hrest
    rw [List.cons_append, take_lexeme,
      if_pos (hall c (List.mem_cons_self c l)),
      ih rest (fun d hd => hall d (List.mem_cons_of_mem c hd)) hrest]

/-- `parse_expr` on a maximal lexeme of symbol constituents followed by a
non-constituent: the atom branch, consuming exactly the lexeme and
allocating nothing. -/
theorem parse_expr_lexeme (f : Nat) (opts : ReaderOpts) (l rest : List Char)
    (h : Heap) (hne : l ≠ [])
    (hall : ∀ c ∈ l, is_symbol_start (some c) = true)
    (hrest : is_symbol_part (peekc rest) = false) :
    parse_expr (f + 1) opts (l ++ rest) h =
      .ok ((match int_lexeme l with
            | some n => SExp.int n
            | none => intern (String.mk l)), rest, h) := by
  cases l with
  | nil => exact absurd rfl hne
  | cons c l' =>
    have hc : is_symbol_start (some c) = true :=
      hall c (List.mem_cons_self c l')
    rw [List.cons_append, parse_expr_atom_step f opts c (l' ++ rest) h hc]
    have htl : take_lexeme (c :: (l' ++ rest)) = (c :: l', rest) := by
      rw [← List.cons_append]
      exact take_lexeme_all (c :: l') rest hall hrest
    rw [htl]

theorem goodSym_facts {s : String} (hg : goodSym s = true) :
    s.data ≠ [] ∧ (∀ c ∈ s.data, is_symbol_start (some c) = true)
      ∧ s ≠ "nil" ∧ s ≠ "." ∧ int_lexeme s.data = none := by
  simp only [goodSym, Bool.and_eq_true] at hg
  obtain ⟨⟨⟨⟨h1, h2⟩, h3⟩, h4⟩, h5⟩ := hg
  refine ⟨?_, ?_, ?_, ?_, ?_⟩
  · intro hcontra
    rw [hcontra] at h1
    simp at h1
  · intro c hc
    have h6 := List.all_eq_true.mp h2 c hc
    simpa using h6
  · intro hcontra
    rw [hcontra] at h3
    simp at h3
  · intro hcontra
    rw [hcontra] at h4
    simp at h4
  · exact Option.isNone_iff_eq_none.mp h5

/-- Reading back a printed good symbol name gives the same symbol. -/
theorem parse_expr_goodSym (f : Nat) (opts : ReaderOpts) (s : String)
    (rest : List Char) (h : Heap) (hg : goodSym s = true)
    (hrest : is_symbol_part (peekc rest) = false) :
    parse_expr (f + 1) opts (s.data ++ rest) h = .ok (.sym s, rest, h) := by
  obtain ⟨hne, hall, hnil, hdot, hint⟩ := goodSym_facts hg
  rw [parse_expr_lexeme f opts s.data rest h hne hall hrest, hint]
  have hmk : String.mk s.data = s := rfl
  rw [hmk, intern, if_neg hnil]
  rfl

/-- Reading back the printed nil gives nil. -/
theorem parse_expr_nil (f : Nat) (opts : ReaderOpts)
    (rest : List Char) (h : Heap)
    (hrest : is_symbol_part (peekc rest) = false) :
    parse_expr (f + 1) opts ("nil".data ++ rest) h = .ok (.nil, rest, h) := by
  rw [parse_expr_lexeme f opts "nil".data rest h (by decide)
    (by decide) hrest]
  rfl

/-- Reading a standalone dot lexeme gives the dotted-pair marker symbol. -/
theorem parse_expr_dot (f : Nat) (opts : ReaderOpts)
    (rest : List Char) (h : Heap)
    (hrest : is_symbol_part (peekc rest) = false) :
    parse_expr (f + 1) opts ('.' :: rest) h
      = .ok (.sym ".", rest, h) := by
  rw [show ('.' :: rest) = ".".data ++ rest from rfl,
    parse_expr_lexeme f opts ".".data rest h (by decide) (by decide) hrest]
  rfl

/-- A decoded good tree is never the dotted-pair marker. -/
theorem DecTree_not_dot {h : Heap} {lo hi : Nat} {e : SExp} {t : Tree}
    (hd : DecTree h lo hi e t) (hg : goodTree t = true) :
    eq e (intern ".") = false := by
  have hdot : intern "." = SExp.sym "." := by decide
  rw [hdot]
  cases hd with
  | dnil => rfl
  | dsym s =>
    simp only [goodTree] at hg
    have hs : s ≠ "." := (goodSym_facts hg).2.2.2.1
    simp [eq, hs]
  | dcons i a d ta td _ _ _ _ _ => rfl

/-- The first character of a printed good tree: never whitespace, a
comment start, or a closing paren. -/
theorem printT_head (t : Tree) (hg : goodTree t = true) :
    ∃ c cs, (printT t).data = c :: cs ∧ is_ws c = false ∧ c ≠ ';'
      ∧ c ≠ ')' := by
  cases t with
  | tnil => exact ⟨'n', ['i', 'l'], rfl, by decide, by decide, by decide⟩
  | tsym s =>
    simp only [goodTree] at hg
    obtain ⟨hne, hall, -, -, -⟩ := goodSym_facts hg
    cases hsd : s.data with
    | nil => exact absurd hsd hne
    | cons c cs =>
      have hc : is_symbol_start (some c) = true := by
        apply hall
        rw [hsd]
        exact List.mem_cons_self c cs
      obtain ⟨hws, -, -, hrp, hsc, -⟩ := symbol_start_facts hc
      exact ⟨c, cs, hsd, hws, hsc, hrp⟩
  | tcons a d =>
    refine ⟨'(', ((printT a ++ printTailT d ++ ")").data), ?_, by decide,
      by decide, by decide⟩
    show ("(" ++ (printT a ++ printTailT d ++ ")")).data = _
    rw [sdata_append]
    rfl


theorem get?_concat_self {α : Type} (l : List α) (a : α) :
    (l ++ [a])[l.length]? = some a := by
  rw [List.getElem?_append_right (le_refl l.length)]
  simp

theorem parse_expr_lparen (f : Nat) (opts : ReaderOpts) (cs : List Char)
    (h : Heap) :
    parse_expr (f + 1) opts ('(' :: cs) h
      = parse_list_loop f opts .nil .nil cs h := by
  have hsj : skip_junk opts ('(' :: cs) = '(' :: cs :=
    skip_junk_head opts cs (by decide) (by decide)
  simp only [parse_expr, hsj, peekc]
  rw [if_neg (by simp), if_pos trivial]

theorem printTailT_restOk (td : Tree) (rest : List Char) :
    is_symbol_part (peekc ((printTailT td).data ++ ')' :: rest)) = false := by
  cases td <;> rfl

/-- Reading back printed trees: joint statement for `parse_expr` on a
printed tree and for `parse_list_loop` on a printed cdr followed by the
closing paren, by strong induction on the node count.  The reader returns
an expression decoding to the same tree, entirely in freshly allocated
cells, leaving the original heap cells untouched (except, in the loop
case, the cdr of the spine cell `p` it is asked to extend). -/
theorem parse_printT_aux :
    ∀ n : Nat, ∀ t : Tree, tsize t ≤ n → goodTree t = true →
    ((∀ fuel opts rest h, tsize t + 1 ≤ fuel →
        is_symbol_part (peekc rest) = false →
        ∃ e h', parse_expr fuel opts ((printT t).data ++ rest) h
            = .ok (e, rest, h')
          ∧ h.length ≤ h'.length
          ∧ (∀ j, j < h.length → h'[j]? = h[j]?)
          ∧ DecTree h' h.length h'.length e t)
     ∧ (∀ fuel opts hd rest h p x, tsize t + 1 ≤ fuel →
          p < h.length → h[p]? = some (x, SExp.nil) →
          ∃ h' d', parse_list_loop fuel opts hd (.ref p)
              ((printTailT t).data ++ ')' :: rest) h = .ok (hd, rest, h')
            ∧ h.length ≤ h'.length
            ∧ (∀ j, j < h.length → j ≠ p → h'[j]? = h[j]?)
            ∧ h'[p]? = some (x, d')
            ∧ DecTree h' h.length h'.length d' t)) := by
  intro n
  induction n with
  | zero =>
    intro t hsz hg
    exact absurd hsz (by have := tsize_pos t; omega)
  | succ n ih =>
    intro t hsz hg
    cases t with
    | tnil =>
      constructor
      · intro fuel opts rest h hfuel hrest
        obtain ⟨f, rfl⟩ : ∃ f, fuel = f + 1 := ⟨fuel - 1, by omega⟩
        exact ⟨.nil, h, parse_expr_nil f opts rest h hrest, le_refl _,
          fun j _ => rfl, .dnil⟩
      · intro fuel opts hd rest h p x hfuel hp hcell
        obtain ⟨f, rfl⟩ : ∃ f, fuel = f + 1 := ⟨fuel - 1, by omega⟩
        refine ⟨h, .nil, ?_, le_refl _, fun j _ _ => rfl, hcell, .dnil⟩
        show parse_list_loop (f + 1) opts hd (.ref p) (')' :: rest) h = _
        have hsj : skip_junk opts (')' :: rest) = ')' :: rest :=
          skip_junk_head opts rest (by decide) (by decide)
        simp only [parse_list_loop, hsj]
    | tsym s =>
      have hgs : goodSym s = true := by simpa [goodTree] using hg
      constructor
      · intro fuel opts rest h hfuel hrest
        obtain ⟨f, rfl⟩ : ∃ f, fuel = f + 1 := ⟨fuel - 1, by omega⟩
        exact ⟨.sym s, h, parse_expr_goodSym f opts s rest h hgs hrest,
          le_refl _, fun j _ => rfl, .dsym s⟩
      · intro fuel opts hd rest h p x hfuel hp hcell
        simp only [tsize] at hfuel
        obtain ⟨f, rfl⟩ : ∃ f, fuel = f + 2 := ⟨fuel - 2, by omega⟩
        refine ⟨h.set p (x, .sym s), .sym s, ?_, by simp, ?_, ?_, .dsym s⟩
        · show parse_list_loop (f + 1 + 1) opts hd (.ref p)
            ((" . " ++ s).data ++ ')' :: rest) h = _
          rw [show ((" . " ++ s).data ++ ')' :: rest)
              = ' ' :: '.' :: ' ' :: (s.data ++ ')' :: rest) from by
            rw [sdata_append]; rfl]
          rw [parse_list_loop_ws (f + 1) opts hd (.ref p) ' '
            ('.' :: ' ' :: (s.data ++ ')' :: rest)) h (by decide)]
          have hsj : skip_junk opts ('.' :: ' ' :: (s.data ++ ')' :: rest))
              = '.' :: ' ' :: (s.data ++ ')' :: rest) :=
            skip_junk_head opts _ (by decide) (by decide)
          simp only [parse_list_loop, hsj]
          split
          · rename_i heq; simp at heq
          · rename_i cs3 rest3 heq; simp at heq
          · have hsj2 : skip_junk opts (')' :: rest) = ')' :: rest :=
              skip_junk_head opts rest (by decide) (by decide)
            have hd1 : parse_expr (f + 1) opts
                ('.' :: ' ' :: (s.data ++ ')' :: rest)) h
                = .ok (.sym ".", ' ' :: (s.data ++ ')' :: rest), h) :=
              parse_expr_dot f opts (' ' :: (s.data ++ ')' :: rest)) h rfl
            have hd2 : parse_expr (f + 1) opts
                (' ' :: (s.data ++ ')' :: rest)) h
                = parse_expr (f + 1) opts (s.data ++ ')' :: rest) h :=
              parse_expr_ws f opts ' ' (s.data ++ ')' :: rest) h (by decide)
            have hd3 : parse_expr (f + 1) opts (s.data ++ ')' :: rest) h
                = .ok (.sym s, ')' :: rest, h) :=
              parse_expr_goodSym f opts s (')' :: rest) h hgs rfl
            have hdot : eq (SExp.sym ".") (intern ".") = true := by decide
            simp only [hd1, hdot, if_true, hd2, hd3, set_cdr, hcell, hsj2]
        · intro j hj hjp
          exact get?_set_other _ (Ne.symm hjp)
        · exact get?_set_self _ hp
    | tcons ta td =>
      have hga : goodTree ta = true := by
        simp only [goodTree, Bool.and_eq_true] at hg; exact hg.1
      have hgd : goodTree td = true := by
        simp only [goodTree, Bool.and_eq_true] at hg; exact hg.2
      have hpa := tsize_pos ta
      have hpd := tsize_pos td
      have hsza : tsize ta ≤ n := by simp only [tsize] at hsz; omega
      have hszd : tsize td ≤ n := by simp only [tsize] at hsz; omega
      have iha := ih ta hsza hga
      have ihd := ih td hszd hgd
      obtain ⟨ca, csa, hhead, hwsa, hsca, hrpa⟩ := printT_head ta hga
      constructor
      · -- parse_expr on "(" ++ printT ta ++ printTailT td ++ ")"
        intro fuel opts rest h hfuel hrest
        simp only [tsize] at hfuel
        obtain ⟨f, rfl⟩ : ∃ f, fuel = f + 1 := ⟨fuel - 1, by omega⟩
        rw [show ((printT (.tcons ta td)).data ++ rest)
            = '(' :: ((printT ta).data
                ++ ((printTailT td).data ++ ')' :: rest)) from by
          show (("(" ++ printT ta ++ printTailT td ++ ")").data ++ rest) = _
          simp [sdata_append]]
        rw [parse_expr_lparen f opts _ h]
        obtain ⟨g, rfl⟩ : ∃ g, f = g + 1 := ⟨f - 1, by omega⟩
        obtain ⟨ea, h1, heq1, hlen1, hpres1, hdec1⟩ :=
          iha.1 g opts ((printTailT td).data ++ ')' :: rest) h (by omega)
            (printTailT_restOk td rest)
        rw [hhead, List.cons_append] at heq1 ⊢
        have hsj : skip_junk opts
            (ca :: (csa ++ ((printTailT td).data ++ ')' :: rest)))
            = ca :: (csa ++ ((printTailT td).data ++ ')' :: rest)) :=
          skip_junk_head opts _ hwsa hsca
        simp only [parse_list_loop, hsj]
        split
        · rename_i heq; simp at heq
        · rename_i cs3 rest3 heq
          injection heq with hc _
          exact absurd hc hrpa
        · rw [heq1]
          simp only [DecTree_not_dot hdec1 hga, Bool.false_eq_true,
            if_false, cons, is_nil, reduceIte]
          obtain ⟨h4, d2, heq2, hlen2, hpres2, hcell2, hdec2⟩ :=
            ihd.2 g opts (.ref h1.length) rest (h1 ++ [(ea, SExp.nil)])
              h1.length ea (by omega) (by simp) (get?_concat_self h1 _)
          rw [heq2]
          refine ⟨.ref h1.length, h4, rfl, ?_, ?_, ?_⟩
          · simp only [List.length_append, List.length_cons,
              List.length_nil] at hlen2
            omega
          · intro j hj
            rw [hpres2 j (by simp; omega) (by omega),
              get?_append_left (by omega), hpres1 j hj]
          · refine .dcons h1.length ea d2 ta td hlen1 ?_ hcell2 ?_ ?_
            · simp only [List.length_append, List.length_cons,
                List.length_nil] at hlen2
              omega
            · refine DecTree_mono (DecTree_frame hdec1 ?_) (le_refl _) ?_
              · intro j hjlo hjhi
                rw [hpres2 j (by simp; omega) (by omega),
                  get?_append_left hjhi]
              · simp only [List.length_append, List.length_cons,
                  List.length_nil] at hlen2
                omega
            · exact DecTree_mono hdec2 (by simp; omega) (le_refl _)
      · -- the loop on " " ++ printT ta ++ printTailT td, closing with ")"
        intro fuel opts hd rest h p x hfuel hp hcell
        simp only [tsize] at hfuel
        obtain ⟨f, rfl⟩ : ∃ f, fuel = f + 1 := ⟨fuel - 1, by omega⟩
        rw [show ((printTailT (.tcons ta td)).data ++ ')' :: rest)
            = ' ' :: ((printT ta).data
                ++ ((printTailT td).data ++ ')' :: rest)) from by
          show ((" " ++ printT ta ++ printTailT td).data ++ ')' :: rest) = _
          simp [sdata_append]]
        rw [parse_list_loop_ws f opts hd (.ref p) ' '
          ((printT ta).data ++ ((printTailT td).data ++ ')' :: rest)) h
          (by decide)]
        obtain ⟨eb, h1, heq1, hlen1, hpres1, hdec1⟩ :=
          iha.1 f opts ((printTailT td).data ++ ')' :: rest) h (by omega)
            (printTailT_restOk td rest)
        rw [hhead, List.cons_append] at heq1 ⊢
        have hsj : skip_junk opts
            (ca :: (csa ++ ((printTailT td).data ++ ')' :: rest)))
            = ca :: (csa ++ ((printTailT td).data ++ ')' :: rest)) :=
          skip_junk_head opts _ hwsa hsca
        simp only [parse_list_loop, hsj]
        split
        · rename_i heq; simp at heq
        · rename_i cs3 rest3 heq
          injection heq with hc _
          exact absurd hc hrpa
        · rw [heq1]
          simp only [DecTree_not_dot hdec1 hga, Bool.false_eq_true,
            if_false, cons, is_nil, reduceIte]
          have hp1 : p < h1.length := lt_of_lt_of_le hp hlen1
          have hcell1 : (h1 ++ [(eb, SExp.nil)])[p]? = some (x, SExp.nil) := by
            rw [get?_append_left hp1, hpres1 p hp]
            exact hcell
          simp only [set_cdr, hcell1]
          obtain ⟨h4, d2, heq2, hlen2, hpres2, hcell2, hdec2⟩ :=
            ihd.2 f opts hd rest
              ((h1 ++ [(eb, SExp.nil)]).set p (x, .ref h1.length))
              h1.length eb (by omega)
              (by simp [List.length_set])
              (by
                rw [get?_set_other _ (by omega : p ≠ h1.length)]
                exact get?_concat_self h1 _)
          rw [heq2]
          have hlen3 : ((h1 ++ [(eb, SExp.nil)]).set p
              (x, SExp.ref h1.length)).length = h1.length + 1 := by
            simp [List.length_set]
          refine ⟨h4, .ref h1.length, rfl, by omega, ?_, ?_, ?_⟩
          · intro j hj hjp
            rw [hpres2 j (by omega) (by omega),
              get?_set_other _ (Ne.symm hjp), get?_append_left (by omega),
              hpres1 j hj]
          · rw [hpres2 p (by omega) (by omega), get?_set_self _ (by simp; omega)]
          · refine .dcons h1.length eb d2 ta td hlen1 (by omega) hcell2 ?_ ?_
            · refine DecTree_mono (DecTree_frame hdec1 ?_) (le_refl _)
                (by omega)
              intro j hjlo hjhi
              rw [hpres2 j (by omega) (by omega),
                get?_set_other _ (by omega : p ≠ j),
                get?_append_left hjhi]
            · exact DecTree_mono hdec2 (by omega) (le_refl _)


/-- C1 (amended): the claim as stated fails — see the counterexample:
`equal` is object identity on pairs, integers cannot be printed (C2), and
symbol names with whitespace or reader syntax in them do not re-read.  The
repaired round trip: for every expression `e` that decodes to a tree `t`
of Nil, pairs, and symbols whose names are nonempty strings of symbol
constituents other than "nil", "." and integer lexemes, printing succeeds
with the canonical text of `t`, and reading that text back — into any
heap — consumes the whole input and returns an expression that decodes to
the same tree `t` in fresh cells, leaving the pre-existing cells
untouched.  (Structural equality of trees replaces `equal`, which on
pairs is object identity and therefore does not relate the re-read copy
to `e`.) -/
theorem c1_print_read_round_trip (t : Tree) (e : SExp) (h h2 : Heap)
    (lo hi : Nat) (fuel fuel2 : Nat)
    (hg : goodTree t = true) (hdec : DecTree h lo hi e t)
    (hf : tsize t + 1 ≤ fuel) (hf2 : tsize t + 1 ≤ fuel2) :
    ∃ (e' : SExp) (h' : Heap),
      repr_expr fuel e h = .ok (printT t)
      ∧ read_one_from_string fuel2 readerDefaults (printT t) h2
          = .ok (e', [], h')
      ∧ h2.length ≤ h'.length
      ∧ (∀ j, j < h2.length → h'[j]? = h2[j]?)
      ∧ DecTree h' h2.length h'.length e' t := by
  obtain ⟨e', h', heq, hlen, hpres, hdec'⟩ :=
    (parse_printT_aux (tsize t) t (le_refl _) hg).1 fuel2 readerDefaults
      [] h2 hf2 rfl
  refine ⟨e', h', (render_of_DecTree hdec).1 fuel hf, ?_, hlen, hpres, hdec'⟩
  show parse_expr fuel2 readerDefaults (printT t).data h2 = _
  rw [show (printT t).data = (printT t).data ++ [] from
    (List.append_nil _).symm]
  exact heq

/-- C1 witness: the amended theorem applied to the one-element list
`(a)` — the heap cell `(a . nil)` at address 0 — printed with fuel 9 and
re-read into the empty heap. -/
theorem c1_witness :
    ∃ (e' : SExp) (h' : Heap),
      repr_expr 9 (.ref 0) [(SExp.sym "a", SExp.nil)]
        = .ok (printT (.tcons (.tsym "a") .tnil))
      ∧ read_one_from_string 9 readerDefaults
          (printT (.tcons (.tsym "a") .tnil)) [] = .ok (e', [], h')
      ∧ (List.length ([] : Heap)) ≤ h'.length
      ∧ (∀ j, j < List.length ([] : Heap) → h'[j]? = ([] : Heap)[j]?)
      ∧ DecTree h' (List.length ([] : Heap)) h'.length e'
          (.tcons (.tsym "a") .tnil) :=
  c1_print_read_round_trip (.tcons (.tsym "a") .tnil) (.ref 0)
    [(SExp.sym "a", SExp.nil)] [] 0 1 9 9 (by decide)
    (.dcons 0 (.sym "a") .nil (.tsym "a") .tnil (Nat.le_refl 0)
      Nat.one_pos rfl (.dsym "a") .dnil)
    (by decide) (by decide)

end Lisp
